import Mathlib

set_option autoImplicit false
set_option maxRecDepth 8192

/-!
Verification of the BrickSniperDiscord poll-parse-dedup pipeline.

The Python source (post_parser.py, reddit_listener.py) is shallowly embedded
below.  Python strings are modelled at the UTF-8 byte level: a string is a
`List (Fin 256)`.  Character-class tests (digits, whitespace, upper/lower
case) are modelled over the ASCII range; multi-byte UTF-8 sequences are
opaque bytes ≥ 0x80 which never satisfy an ASCII class, matching CPython's
behaviour on ASCII input, which covers every concrete string appearing in
the source and in the claims.
-/

namespace BrickSniper

/-- A byte of a Python string (UTF-8 byte-level model). -/
abbrev Byte := Fin 256

/-- Byte-level model of a Python `str`. -/
abbrev PyStr := List Byte

/-- Embed an ASCII Lean string literal as its byte-level model. -/
def pstr (s : String) : PyStr :=
  s.toList.map (fun c => ⟨c.toNat % 256, Nat.mod_lt _ (by omega)⟩)

/-- ASCII decimal digit test, the `\d` class of the source's regexes. -/
def isDigitByte (b : Byte) : Bool := 48 ≤ b.val && b.val ≤ 57

/-- Numeric value of an ASCII digit byte. -/
def digitVal (b : Byte) : Nat := b.val - 48

/-- Python `int()` on a run of ASCII digits. -/
def digitsToNat (ds : PyStr) : Nat := ds.foldl (fun acc b => acc * 10 + digitVal b) 0

/-- Python `str.lower` on one byte (ASCII range). -/
def lowerByte (b : Byte) : Byte :=
  if h : 65 ≤ b.val ∧ b.val ≤ 90 then ⟨b.val + 32, by omega⟩ else b

/-- Python `str.lower` on a whole string. -/
def pyLower (s : PyStr) : PyStr := s.map lowerByte

/-- Whitespace test for the `\s` regex class and `str.strip` / `str.isspace`
(ASCII range: TAB LF VT FF CR, the separators 0x1c-0x1f, and SPACE). -/
def isSpaceByte (b : Byte) : Bool :=
  (9 ≤ b.val && b.val ≤ 13) || (28 ≤ b.val && b.val ≤ 32)

/-- Python `str.strip()`: drop whitespace from both ends. -/
def pyStrip (s : PyStr) : PyStr :=
  ((s.dropWhile (fun b => isSpaceByte b)).reverse.dropWhile (fun b => isSpaceByte b)).reverse

/-- Does `p` occur as a prefix of `s`?  (Helper for substring containment.) -/
def hasPre : PyStr → PyStr → Bool
  | [], _ => true
  | _ :: _, [] => false
  | a :: p, b :: s => a == b && hasPre p s

/-- Python's substring containment `p in s`. -/
def containsSub (p : PyStr) : PyStr → Bool
  | [] => hasPre p []
  | b :: s => hasPre p (b :: s) || containsSub p s

/-! ### Backoff sleep computation (reddit_listener.py, RedditListener.start, lines 164-173)

`sleep_time = self.config.POLL_INTERVAL`
`if consecutive_failures > 0:`
`    sleep_time = min(self.config.POLL_INTERVAL * (2 ** min(consecutive_failures, 3)), 60)`
-/

/-- Sleep duration computed at the bottom of the polling loop. -/
def backoffSleep (pollInterval : Nat) (consecutiveFailures : Nat) : Nat :=
  if consecutiveFailures > 0 then
    min (pollInterval * 2 ^ min consecutiveFailures 3) 60
  else
    pollInterval

/-! ### Discount extraction (post_parser.py, PostParser.extract_discount_percentage)

Pattern 1 is `re.search(r'(\d+)%\s*off', title, re.IGNORECASE)` and pattern 2
is `re.search(r'(\d+)%', title)`.  `re.search` scans start positions left to
right; at a given start, `(\d+)` greedily takes the maximal digit run, and
since every backtracked shorter run leaves a digit (never `%`) as the next
character, the search at that start succeeds exactly when the maximal run is
immediately followed by `%` (and, for pattern 1, by `\s*` then `off`
case-insensitively).  On failure it advances one position, including into the
middle of a digit run. -/

/-- Split off the maximal leading run of ASCII digits. -/
def digitSpan : PyStr → PyStr × PyStr
  | [] => ([], [])
  | b :: s =>
    if isDigitByte b then
      let p := digitSpan s
      (b :: p.1, p.2)
    else
      ([], b :: s)

/-- Drop the maximal leading run of whitespace (the greedy `\s*`). -/
def dropSpaces : PyStr → PyStr
  | [] => []
  | b :: s => if isSpaceByte b then dropSpaces s else b :: s

/-- After the `%`, does `\s*off` (case-insensitive) match here? -/
def offAfter (s : PyStr) : Bool :=
  match dropSpaces s with
  | o :: f1 :: f2 :: _ => lowerByte o == 111 && (lowerByte f1 == 102 && lowerByte f2 == 102)
  | _ => false

/-- Leftmost match of `(\d+)%\s*off` (IGNORECASE): the captured digits' value. -/
def findPctOff : PyStr → Option Nat
  | [] => none
  | b :: s =>
    if isDigitByte b then
      let p := digitSpan (b :: s)
      match p.2 with
      | c :: r => if c == (37 : Byte) && offAfter r then some (digitsToNat p.1) else findPctOff s
      | [] => findPctOff s
    else
      findPctOff s

/-- Leftmost match of `(\d+)%`: the captured digits' value. -/
def findPct : PyStr → Option Nat
  | [] => none
  | b :: s =>
    if isDigitByte b then
      let p := digitSpan (b :: s)
      match p.2 with
      | c :: _ => if c == (37 : Byte) then some (digitsToNat p.1) else findPct s
      | [] => findPct s
    else
      findPct s

/-- PostParser.extract_discount_percentage (post_parser.py lines 269-308). -/
def extract_discount_percentage (title : PyStr) : Option Nat :=
  if title = [] then
    none
  else
    match findPctOff title with
    | some v => some v
    | none =>
      match findPct title with
      | some percent =>
        if 1 ≤ percent ∧ percent ≤ 100 then
          let context := pyLower title
          if containsSub (pstr "off") context ||
             (containsSub (pstr "%") context || containsSub (pstr "/") context) then
            some percent
          else
            none
        else
          none
      | none => none

/-! ### urllib.parse model (CPython 3.11)

`PostParser.convert_to_affiliate_link` is built on `urlparse`, `parse_qs`,
`urlencode` and `urlunparse`.  These stdlib functions are embedded below at
the byte level.  The two validation steps of `urlsplit` that call out to
`ipaddress` / `unicodedata` (`_check_bracketed_host` on a netloc containing
both brackets, and `_checknetloc` on a non-ASCII netloc) are taken as
parameters (`NetlocChecks`); every theorem quantifies over them, and for the
ASCII bracket-free netlocs of the concrete witnesses CPython's checks always
pass, matching the trivial instantiation. -/

/-- Bytes CPython's `_ALWAYS_SAFE` leaves unescaped: alphanumerics and
`_.-~`. -/
def isAlwaysSafe (b : Byte) : Bool :=
  (48 ≤ b.val && b.val ≤ 57) || (65 ≤ b.val && b.val ≤ 90) ||
  (97 ≤ b.val && b.val ≤ 122) ||
  (b.val == 45 || (b.val == 46 || (b.val == 95 || b.val == 126)))

/-- Uppercase hexadecimal digit of `n % 16`, as in `quote`'s escape table. -/
def hexDig (n : Nat) : Byte :=
  if h : n % 16 < 10 then ⟨48 + n % 16, by omega⟩
  else ⟨55 + n % 16, by have := Nat.mod_lt n (y := 16) (by omega); omega⟩

/-- Value of a hexadecimal digit byte, either case (`_hextobyte`). -/
def hexVal (b : Byte) : Option Nat :=
  if 48 ≤ b.val ∧ b.val ≤ 57 then some (b.val - 48)
  else if 65 ≤ b.val ∧ b.val ≤ 70 then some (b.val - 55)
  else if 97 ≤ b.val ∧ b.val ≤ 102 then some (b.val - 87)
  else none

/-- Reassemble a byte from two hex-digit values. -/
def hexByte (x y : Nat) : Byte := ⟨(16 * x + y) % 256, Nat.mod_lt _ (by omega)⟩

/-- One byte of `quote_plus(s, safe='')`: safe bytes kept, space becomes
`+`, everything else `%XX`. -/
def quoteByte (b : Byte) : PyStr :=
  if isAlwaysSafe b then [b]
  else if b.val = 32 then [43]
  else [37, hexDig (b.val / 16), hexDig b.val]

/-- `quote_plus(s, safe='')` over a whole string. -/
def quotePlus : PyStr → PyStr
  | [] => []
  | b :: s => quoteByte b ++ quotePlus s

/-- The `.replace('+', ' ')` step of `parse_qsl`. -/
def plusToSpace (s : PyStr) : PyStr :=
  s.map (fun b => if b.val = 43 then (32 : Byte) else b)

/-- `unquote` at the byte level: each `%XX` with two hex digits becomes one
byte, a `%` not followed by two hex digits is literal. -/
def unquoteB : PyStr → PyStr
  | [] => []
  | b :: h1 :: h2 :: rest =>
    if b.val = 37 then
      match hexVal h1, hexVal h2 with
      | some x, some y => hexByte x y :: unquoteB rest
      | _, _ => b :: unquoteB (h1 :: h2 :: rest)
    else
      b :: unquoteB (h1 :: h2 :: rest)
  | b :: rest => b :: unquoteB rest

/-- `unquote(s.replace('+', ' '))`, the decoding used by `parse_qsl`. -/
def unquotePlusB (s : PyStr) : PyStr := unquoteB (plusToSpace s)

/-- Python `s.split(sep)` for a one-byte separator. -/
def splitOnB (sep : Byte) : PyStr → List PyStr
  | [] => [[]]
  | b :: s =>
    if b == sep then
      [] :: splitOnB sep s
    else
      match splitOnB sep s with
      | h :: t => (b :: h) :: t
      | [] => [[b]]

/-- Python `s.split(sep, 1)`: the part before the first `sep` and the part
after it (`(s, '')` when `sep` does not occur). -/
def splitFirstD (sep : Byte) : PyStr → PyStr × PyStr
  | [] => ([], [])
  | b :: s =>
    if b == sep then
      ([], s)
    else
      let p := splitFirstD sep s
      (b :: p.1, p.2)

/-- Python `sep.join(parts)` for a one-byte separator. -/
def joinSepB (sep : Byte) : List PyStr → PyStr
  | [] => []
  | [x] => x
  | x :: xs => x ++ sep :: joinSepB sep xs

/-- Processing of one `name_value` chunk of `parse_qsl`: skip empty
chunks, chunks without `=`, and chunks whose encoded value is empty;
otherwise decode name and value with `unquote_plus`. -/
def parseQslChunk (nv : PyStr) : Option (PyStr × PyStr) :=
  if nv = [] then none
  else if (61 : Byte) ∈ nv then
    let p := splitFirstD 61 nv
    if p.2 = [] then none
    else some (unquotePlusB p.1, unquotePlusB p.2)
  else none

/-- `parse_qsl(qs)` with the default arguments used by the source:
split on `&` and process each chunk. -/
def parse_qsl_model (qs : PyStr) : List (PyStr × PyStr) :=
  let args := if qs = [] then [] else splitOnB 38 qs
  args.filterMap parseQslChunk

/-- The insertion-ordered dict `parse_qs` builds: keys are unique. -/
abbrev QDict := List (PyStr × List PyStr)

/-- The dict-building step of `parse_qs`: append to an existing key's list,
else add a new key at the end. -/
def dictAppend (d : QDict) (k : PyStr) (v : PyStr) : QDict :=
  if d.any (fun e => e.1 == k) then
    d.map (fun e => if e.1 == k then (e.1, e.2 ++ [v]) else e)
  else
    d ++ [(k, [v])]

/-- `parse_qs(qs)` with default arguments. -/
def parse_qs_model (qs : PyStr) : QDict :=
  (parse_qsl_model qs).foldl (fun d kv => dictAppend d kv.1 kv.2) []

/-- Python dict assignment `d[k] = vs`: replace in place, else append. -/
def dictSet (d : QDict) (k : PyStr) (vs : List PyStr) : QDict :=
  if d.any (fun e => e.1 == k) then
    d.map (fun e => if e.1 == k then (e.1, vs) else e)
  else
    d ++ [(k, vs)]

/-- One `k=v` chunk of `urlencode(query, doseq=True)`. -/
def encodeField (k v : PyStr) : PyStr := quotePlus k ++ 61 :: quotePlus v

/-- The list `l` accumulated by `urlencode(query, doseq=True)` over a dict
whose values are lists of strings. -/
def encodeFields : QDict → List PyStr
  | [] => []
  | kv :: d => kv.2.map (encodeField kv.1) ++ encodeFields d

/-- `urlencode(query, doseq=True)`: `'&'.join(l)`. -/
def urlencodeB (d : QDict) : PyStr := joinSepB 38 (encodeFields d)

/-- Result record of `urlsplit`. -/
structure SplitResult where
  scheme : PyStr
  netloc : PyStr
  path : PyStr
  query : PyStr
  fragment : PyStr
deriving DecidableEq, Repr

/-- The two `urlsplit` validation hooks that live outside `urllib.parse`
(`ipaddress.ip_address` and `unicodedata.normalize`), taken as parameters:
`bracketedHostOk` models `_check_bracketed_host` not raising, and
`checknetlocOk` models `_checknetloc` not raising.  For an all-ASCII netloc
without brackets CPython always passes both, so concrete witnesses
instantiate them with `fun _ => true`. -/
structure NetlocChecks where
  bracketedHostOk : PyStr → Bool
  checknetlocOk : PyStr → Bool

/-- Leading-strip of WHATWG C0-control-or-space bytes (0x00-0x20). -/
def lstripC0 (s : PyStr) : PyStr := s.dropWhile (fun b => b.val ≤ 32)

/-- Removal of the `_UNSAFE_URL_BYTES_TO_REMOVE` (TAB, CR, LF). -/
def removeTabCrLf (s : PyStr) : PyStr :=
  s.filter (fun b => !(b.val == 9 || (b.val == 13 || b.val == 10)))

/-- ASCII letter test (`url[0].isascii() and url[0].isalpha()`). -/
def isAsciiAlpha (b : Byte) : Bool :=
  (65 ≤ b.val && b.val ≤ 90) || (97 ≤ b.val && b.val ≤ 122)

/-- Membership in `scheme_chars`: ASCII letters, digits, `+`, `-`, `.`. -/
def isSchemeChar (b : Byte) : Bool :=
  isAsciiAlpha b || (48 ≤ b.val && b.val ≤ 57) ||
  (b.val == 43 || (b.val == 45 || b.val == 46))

/-- The scheme-detection step of `urlsplit`: split a leading
`<letters+digits+.-+>:` off, lowercased, else leave the url alone. -/
def schemeSplit (url : PyStr) : PyStr × PyStr :=
  let pre := url.takeWhile (fun b => !(b.val == 58))
  if pre.length < url.length ∧ pre ≠ [] ∧
      (match pre with | b :: _ => isAsciiAlpha b | [] => false) = true ∧
      pre.all isSchemeChar then
    (pyLower pre, url.drop (pre.length + 1))
  else
    ([], url)

/-- Netloc content between the first `[` and the following `]`
(`netloc.partition('[')[2].partition(']')[0]`). -/
def bracketContent (netloc : PyStr) : PyStr :=
  ((netloc.dropWhile (fun b => !(b.val == 91))).drop 1).takeWhile
    (fun b => !(b.val == 93))

/-- `_splitnetloc` applied when the remainder starts with `//`: the netloc
runs to the first of `/ ? #`. -/
def splitNetloc (u2 : PyStr) : PyStr × PyStr :=
  if u2.take 2 = [47, 47] then
    let nl := (u2.drop 2).takeWhile
      (fun b => !(b.val == 47 || (b.val == 63 || b.val == 35)))
    (nl, (u2.drop 2).drop nl.length)
  else
    ([], u2)

/-- `urlsplit(url)` (CPython 3.11), returning `none` where CPython raises
`ValueError`. -/
def urlsplitE (ck : NetlocChecks) (url0 : PyStr) : Option SplitResult :=
  let url1 := removeTabCrLf (lstripC0 url0)
  let sp := schemeSplit url1
  let nlp := splitNetloc sp.2
  let netloc := nlp.1
  if ((91 : Byte) ∈ netloc ∧ (93 : Byte) ∉ netloc) ∨
     ((93 : Byte) ∈ netloc ∧ (91 : Byte) ∉ netloc) then
    none
  else if (91 : Byte) ∈ netloc ∧ (93 : Byte) ∈ netloc ∧
      ¬ ck.bracketedHostOk (bracketContent netloc) then
    none
  else if ¬ ck.checknetlocOk netloc then
    none
  else
    let pf := splitFirstD 35 nlp.2
    let pq := splitFirstD 63 pf.1
    some ⟨sp.1, netloc, pq.1, pq.2, pf.2⟩

/-- Result record of `urlparse` (`urlsplit` plus the params split). -/
structure ParseResult6 where
  scheme : PyStr
  netloc : PyStr
  path : PyStr
  params : PyStr
  query : PyStr
  fragment : PyStr
deriving DecidableEq, Repr

/-- `uses_params` (CPython 3.11). -/
def usesParams : List PyStr :=
  [[], pstr "ftp", pstr "hdl", pstr "prospero", pstr "http", pstr "imap",
   pstr "https", pstr "shttp", pstr "rtsp", pstr "rtsps", pstr "rtspu",
   pstr "sip", pstr "sips", pstr "mms", pstr "sftp", pstr "tel"]

/-- `uses_netloc` (CPython 3.11). -/
def usesNetloc : List PyStr :=
  [[], pstr "ftp", pstr "http", pstr "gopher", pstr "nntp", pstr "telnet",
   pstr "imap", pstr "wais", pstr "file", pstr "mms", pstr "https",
   pstr "shttp", pstr "snews", pstr "prospero", pstr "rtsp", pstr "rtsps",
   pstr "rtspu", pstr "rsync", pstr "svn", pstr "svn+ssh", pstr "sftp",
   pstr "nfs", pstr "git", pstr "git+ssh", pstr "ws", pstr "wss"]

/-- `_splitparams(url)`: split `;params` off the last path segment. -/
def splitParams (path : PyStr) : PyStr × PyStr :=
  if (47 : Byte) ∈ path then
    let k := (path.reverse.takeWhile (fun b => !(b.val == 47))).length
    let j := path.length - 1 - k
    let s2 := path.drop j
    let pre2 := s2.takeWhile (fun b => !(b.val == 59))
    if pre2.length < s2.length then
      (path.take (j + pre2.length), path.drop (j + pre2.length + 1))
    else
      (path, [])
  else
    let pre := path.takeWhile (fun b => !(b.val == 59))
    if pre.length < path.length then
      (pre, path.drop (pre.length + 1))
    else
      (path, [])

/-- `urlparse(url)`: `urlsplit` plus the params split for `uses_params`
schemes. -/
def urlparseE (ck : NetlocChecks) (url : PyStr) : Option ParseResult6 :=
  match urlsplitE ck url with
  | none => none
  | some r =>
    let pp :=
      if r.scheme ∈ usesParams ∧ (59 : Byte) ∈ r.path then
        splitParams r.path
      else
        (r.path, [])
    some ⟨r.scheme, r.netloc, pp.1, pp.2, r.query, r.fragment⟩

/-- The `'//' + (netloc or '') + url` assembly step of `urlunsplit`, with
the leading-slash normalization of the path. -/
def netlocJoin (netloc url : PyStr) : PyStr :=
  let url0 := if url ≠ [] ∧ url.take 1 ≠ [47] then 47 :: url else url
  47 :: 47 :: (netloc ++ url0)

/-- `urlunsplit(components)` (CPython 3.11). -/
def urlunsplitB (scheme netloc url query fragment : PyStr) : PyStr :=
  let url1 :=
    if netloc ≠ [] ∨ (scheme ≠ [] ∧ scheme ∈ usesNetloc ∧ url.take 2 ≠ [47, 47]) then
      netlocJoin netloc url
    else
      url
  let url2 := if scheme ≠ [] then scheme ++ 58 :: url1 else url1
  let url3 := if query ≠ [] then url2 ++ 63 :: query else url2
  if fragment ≠ [] then url3 ++ 35 :: fragment else url3

/-- `urlunparse(components)`: rejoin params, then `urlunsplit`. -/
def urlunparseB (p : ParseResult6) : PyStr :=
  let u := if p.params ≠ [] then p.path ++ 59 :: p.params else p.path
  urlunsplitB p.scheme p.netloc u p.query p.fragment

/-! ### PostParser.is_amazon_url and convert_to_affiliate_link
(post_parser.py lines 100-159) -/

/-- The `amazon_domains` list of `is_amazon_url`. -/
def amazonDomains : List PyStr :=
  [pstr "amazon.com", pstr "amazon.co.uk", pstr "amazon.ca",
   pstr "amazon.de", pstr "amazon.fr", pstr "amazon.it", pstr "amazon.es",
   pstr "amazon.co.jp", pstr "amazon.in", pstr "amazon.com.au",
   pstr "amazon.com.mx", pstr "amazon.com.br"]

/-- PostParser.is_amazon_url. -/
def is_amazon_url (url : PyStr) : Bool :=
  if url = [] then false
  else amazonDomains.any (fun d => containsSub d (pyLower url))

/-- PostParser.convert_to_affiliate_link.  The `try`/`except` around URL
decomposition becomes the `none` branch: on a decomposition failure the
original URL is returned unchanged. -/
def convert_to_affiliate_link (ck : NetlocChecks) (url affiliate_tag : PyStr) :
    PyStr :=
  if url = [] ∨ affiliate_tag = [] then url
  else if ¬ is_amazon_url url then url
  else
    match urlparseE ck url with
    | none => url
    | some parsed =>
      let query_params := parse_qs_model parsed.query
      let qp2 := dictSet query_params (pstr "tag") [affiliate_tag]
      let new_query := urlencodeB qp2
      urlunparseB { parsed with query := new_query }

/-- The query component of a URL string, read off syntactically the way
`urlsplit` does: strip the part after the first `#`, then take the part
after the first `?`. -/
def queryOf (u : PyStr) : PyStr :=
  (splitFirstD 63 (splitFirstD 35 u).1).2

/-- The query string assembled inside the rewrite branch of
`convert_to_affiliate_link`. -/
def taggedQuery (p : ParseResult6) (tag : PyStr) : PyStr :=
  urlencodeB (dictSet (parse_qs_model p.query) (pstr "tag") [tag])

/-- The URL assembled by the rewrite branch of
`convert_to_affiliate_link`. -/
def rebuiltUrl (p : ParseResult6) (tag : PyStr) : PyStr :=
  urlunparseB { p with query := taggedQuery p tag }

/-- Decoded values of the `tag` parameters of a query string, in order. -/
def tagValues (q : PyStr) : List PyStr :=
  (parse_qsl_model q).filterMap
    (fun kv => if kv.1 = pstr "tag" then some kv.2 else none)

/-! ### URL_PATTERN (post_parser.py lines 89-92)

`https?://[^\s<>"..punct..]+[^\s<>"..punct..,;:!?]` with `re.IGNORECASE`.
At a given start, the greedy first class takes the maximal run of allowed
bytes; backtracking succeeds at the largest prefix of that run whose last
byte is not trailing punctuation and whose length is at least 2. -/

/-- First character class of URL_PATTERN: anything except whitespace and
the literals `< > " \x7b \x7d | \ ^ `(backquote)` [ ]`. -/
def inClassA (b : Byte) : Bool :=
  !(isSpaceByte b ||
    (b.val == 60 || (b.val == 62 || (b.val == 34 ||
    (b.val == 123 || (b.val == 125 || (b.val == 124 ||
    (b.val == 92 || (b.val == 94 || (b.val == 96 ||
    (b.val == 91 || b.val == 93)))))))))))

/-- Second character class: the first minus trailing punctuation
`. , ; : ! ?`. -/
def inClassB (b : Byte) : Bool :=
  inClassA b &&
  !(b.val == 46 || (b.val == 44 || (b.val == 59 ||
    (b.val == 58 || (b.val == 33 || b.val == 63)))))

/-- Match of `https?://` (IGNORECASE) at the head: the matched bytes and
the remainder.  The greedy `s?` prefers consuming an `s`. -/
def schemeAt (s : PyStr) : Option (PyStr × PyStr) :=
  match s with
  | a :: b :: c :: d :: rest =>
    if (lowerByte a).val = 104 ∧ (lowerByte b).val = 116 ∧
       (lowerByte c).val = 116 ∧ (lowerByte d).val = 112 then
      match rest with
      | e :: f :: g :: h :: rest4 =>
        if (lowerByte e).val = 115 ∧ f.val = 58 ∧ g.val = 47 ∧ h.val = 47 then
          some ([a, b, c, d, e, f, g, h], rest4)
        else if e.val = 58 ∧ f.val = 47 ∧ g.val = 47 then
          some ([a, b, c, d, e, f, g], h :: rest4)
        else
          none
      | [e, f, g] =>
        if e.val = 58 ∧ f.val = 47 ∧ g.val = 47 then
          some ([a, b, c, d, e, f, g], [])
        else
          none
      | _ => none
    else
      none
  | _ => none

/-- URL_PATTERN match attempt at the head of `s`: the matched text and the
remainder after it. -/
def urlMatchAt (s : PyStr) : Option (PyStr × PyStr) :=
  match schemeAt s with
  | none => none
  | some (sch, rest) =>
    let run := rest.takeWhile inClassA
    let t := (run.reverse.takeWhile (fun b => !(inClassB b))).length
    let j := run.length - t
    if 2 ≤ j then some (sch ++ run.take j, rest.drop j) else none

/-- Fuelled scan for `URL_PATTERN.findall`: leftmost non-overlapping
matches.  Each step consumes at least one byte, so `s.length` fuel is
always enough. -/
def findallUrls : Nat → PyStr → List PyStr
  | 0, _ => []
  | _, [] => []
  | fuel + 1, s@(_ :: rest) =>
    match urlMatchAt s with
    | some (m, after) => m :: findallUrls fuel after
    | none => findallUrls (fuel + 1) rest

/-- `URL_PATTERN.findall(s)`. -/
def url_findall (s : PyStr) : List PyStr := findallUrls s.length s

/-- `URL_PATTERN.search(s)`: the leftmost match. -/
def searchUrl : PyStr → Option PyStr
  | [] => none
  | s@(_ :: rest) =>
    match urlMatchAt s with
    | some (m, _) => some m
    | none => searchUrl rest

/-- PostParser.extract_first_url (post_parser.py lines 206-221). -/
def extract_first_url (text : PyStr) : Option PyStr :=
  if text = [] then none else searchUrl text

/-- IMAGE_EXTENSIONS of PostParser. -/
def imageExtensions : List PyStr :=
  [pstr ".jpg", pstr ".jpeg", pstr ".png", pstr ".gif", pstr ".webp",
   pstr ".bmp", pstr ".svg"]

/-- REDDIT_IMAGE_DOMAINS of PostParser. -/
def redditImageDomains : List PyStr :=
  [pstr "i.redd.it", pstr "preview.redd.it", pstr "i.imgur.com",
   pstr "b.thumbs.redditmedia.com", pstr "a.thumbs.redditmedia.com"]

/-- PostParser.is_image_url: domain or extension substring test (the sets
are iterated only for a boolean `or`, so list order is irrelevant). -/
def is_image_url (url : PyStr) : Bool :=
  if url = [] then false
  else
    let ul := pyLower url
    redditImageDomains.any (fun d => containsSub d ul) ||
    imageExtensions.any (fun e => containsSub e ul)

/-- PostParser.extract_image_urls (post_parser.py lines 251-267). -/
def extract_image_urls (text : PyStr) : List PyStr :=
  if text = [] then [] else (url_findall text).filter is_image_url

/-! ### ParsedPost and parse_feed_entry (post_parser.py lines 10-19, 310-427) -/

/-- The ParsedPost dataclass. -/
structure ParsedPost where
  post_id : PyStr
  title : PyStr
  url : PyStr
  selftext : PyStr
  detected_link : Option PyStr := none
  image_url : Option PyStr := none
  discount_percentage : Option Nat := none
deriving DecidableEq, Repr

/-- A `media_thumbnail` / `media_content` item: `media.get("url", "")`. -/
structure MediaItem where
  url : Option PyStr
deriving DecidableEq, Repr

/-- A `content` item: `entry["content"][i].get("value", "")`. -/
structure ContentItem where
  value : Option PyStr
deriving DecidableEq, Repr

/-- A feedparser entry as consumed by parse_feed_entry: `none` models an
absent dictionary key. -/
structure FeedEntry where
  link : Option PyStr := none
  title : Option PyStr := none
  summary : Option PyStr := none
  content : Option (List ContentItem) := none
  media_thumbnail : Option (List MediaItem) := none
  media_content : Option (List MediaItem) := none
deriving DecidableEq, Repr

/-- Leftmost match of `re.search(r'/comments/([^/]+)/', link)`: the
captured id.  The greedy `[^/]+` takes the maximal run of non-slash bytes,
which must be nonempty and be followed by a slash. -/
def findCommentsId : PyStr → Option PyStr
  | [] => none
  | s@(_ :: rest) =>
    if hasPre (pstr "/comments/") s then
      let afterC := s.drop 10
      let run := afterC.takeWhile (fun b => !(b.val == 47))
      if run ≠ [] ∧ run.length < afterC.length then some run
      else findCommentsId rest
    else
      findCommentsId rest

/-- Python truthiness of a str-or-None variable: `None` and `""` are
falsy. -/
def optFalsy (o : Option PyStr) : Bool :=
  match o with
  | none => true
  | some s => s.isEmpty

/-- PostParser.parse_feed_entry.  `cleanHtml` abstracts
`PostParser.clean_html_text` (the stateful `html.parser`-based
HTMLTextExtractor plus its regex fallback): it returns
`(cleaned_text, image_urls, link_urls)` and is taken as a parameter; all
theorems about parsing quantify over it. -/
def parse_feed_entry (cleanHtml : PyStr → PyStr × List PyStr × List PyStr)
    (ck : NetlocChecks) (entry : FeedEntry) (affiliate_tag : Option PyStr) :
    Option ParsedPost :=
  let link := entry.link.getD []
  match findCommentsId link with
  | none => none
  | some post_id =>
    let title := pyStrip (entry.title.getD [])
    if title = [] then none
    else
      let discount_percentage := extract_discount_percentage title
      let raw_selftext :=
        match entry.summary with
        | some s => pyStrip s
        | none =>
          match entry.content with
          | some (c :: _) => pyStrip (c.value.getD [])
          | _ => []
      let cl := cleanHtml raw_selftext
      let selftext := cl.1
      let html_image_urls := cl.2.1
      let html_link_urls := cl.2.2
      let linkPred : PyStr → Bool := fun lu =>
        !(is_image_url lu) && !(containsSub (pstr "reddit.com") (pyLower lu))
      let d1 : Option PyStr := html_link_urls.find? linkPred
      let d2 : Option PyStr :=
        if optFalsy d1 then
          match (url_findall raw_selftext).find? linkPred with
          | some l => some l
          | none => d1
        else d1
      let d3 : Option PyStr :=
        if optFalsy d2 then extract_first_url selftext else d2
      let detected_link : Option PyStr :=
        match d3, affiliate_tag with
        | some l, some t =>
          if l ≠ [] ∧ t ≠ [] ∧ is_amazon_url l then
            some (convert_to_affiliate_link ck l t)
          else d3
        | _, _ => d3
      let i1 : Option PyStr := html_image_urls.find? is_image_url
      let i2 : Option PyStr :=
        if optFalsy i1 then
          match entry.media_thumbnail with
          | some (m :: _) =>
            let tu := m.url.getD []
            if tu ≠ [] ∧ is_image_url tu then some tu else i1
          | _ => i1
        else i1
      let i3 : Option PyStr :=
        if optFalsy i2 then
          match entry.media_content with
          | some ms =>
            match ms.find? (fun m => !(m.url.getD []).isEmpty && is_image_url (m.url.getD [])) with
            | some m => some (m.url.getD [])
            | none => i2
          | none => i2
        else i2
      let i4 : Option PyStr :=
        if optFalsy i3 then
          if is_image_url link then some link else i3
        else i3
      let image_url : Option PyStr :=
        if optFalsy i4 then
          match extract_image_urls selftext with
          | u :: _ => some u
          | [] => i4
        else i4
      some ⟨post_id, title, link, selftext, detected_link, image_url,
            discount_percentage⟩

/-! ### format_for_discord (post_parser.py lines 429-480) -/

/-- A field of the Discord embed. -/
structure EmbedField where
  name : PyStr
  value : PyStr
  inline : Bool
deriving DecidableEq, Repr

/-- The embed dictionary built by format_for_discord (`image` and `fields`
keys are only added conditionally, hence `Option`). -/
structure DiscordEmbed where
  title : PyStr
  url : PyStr
  description : PyStr
  color : Nat
  footer : PyStr
  timestamp : Option PyStr
  image : Option PyStr
  fields : Option (List EmbedField)
deriving DecidableEq, Repr

/-- The webhook payload dictionary. -/
structure DiscordPayload where
  content : PyStr
  embeds : List DiscordEmbed
deriving DecidableEq, Repr

/-- UTF-8 bytes of the bell emoji of the content string. -/
def bellBytes : PyStr := [240, 159, 148, 148]

/-- PostParser.format_for_discord. -/
def format_for_discord (post : ParsedPost)
    (lego_role_mention : Option PyStr := none) : DiscordPayload :=
  let description :=
    if post.selftext ≠ [] then post.selftext.take 2000 else pstr "No description"
  let image :=
    match post.image_url with
    | some iu => if iu ≠ [] then some iu else none
    | none => none
  let fields :=
    if (!(optFalsy post.detected_link)) ∧ post.detected_link ≠ post.image_url then
      match post.detected_link with
      | some l => some [⟨pstr "LINK", pstr "[LEGO LINK](" ++ l ++ pstr ")", false⟩]
      | none => none
    else none
  let baseContent := bellBytes ++ pstr " New deal posted!"
  let content :=
    match post.discount_percentage, lego_role_mention with
    | some dp, some m =>
      if dp ≠ 0 ∧ dp > 50 ∧ m ≠ [] then m ++ 32 :: baseContent else baseContent
    | _, _ => baseContent
  { content := content
    embeds := [{ title := post.title, url := post.url,
                 description := description, color := 16711680,
                 footer := pstr "r/legodeal", timestamp := none,
                 image := image, fields := fields }] }

/-! ### RedditListener (reddit_listener.py)

The listener's per-item state: `seen_posts` (a set of post ids), together
with observation logs: the ids for which the `on_new_post` callback was
invoked, in order, and the ids whose callback raised (caught and logged at
lines 107-110).  The callback's behaviour is abstracted by a predicate
`cbOk : ParsedPost → Bool` (`false` = the call raises); the entry parser
`self.parser.parse_feed_entry(entry, affiliate_tag=...)` is abstracted by a
function `parseE : α → Option ParsedPost` over an arbitrary entry type,
instantiable with `parse_feed_entry cleanHtml ck · tag`. -/

/-- Mutable listener state plus the observable notification log. -/
structure ListenerState where
  seen_posts : List PyStr
  notified : List PyStr
  callback_errors : List PyStr
deriving DecidableEq, Repr

/-- The state right after `__init__`: empty seen set, nothing notified. -/
def ListenerState.empty : ListenerState := ⟨[], [], []⟩

/-- Python `set.add` on the seen set. -/
def addSeen (s : List PyStr) (x : PyStr) : List PyStr :=
  if x ∈ s then s else x :: s

/-- RedditListener._process_entry (lines 84-110): parse; skip when parsing
fails or the id was seen; otherwise mark seen first, then invoke the
callback inside `try`/`except` — a raising callback is only logged. -/
def process_entry {α : Type} (parseE : α → Option ParsedPost)
    (cbOk : ParsedPost → Bool) (st : ListenerState) (entry : α) :
    ListenerState :=
  match parseE entry with
  | none => st
  | some p =>
    if p.post_id ∈ st.seen_posts then st
    else
      { seen_posts := addSeen st.seen_posts p.post_id
        notified := st.notified ++ [p.post_id]
        callback_errors :=
          if cbOk p then st.callback_errors
          else st.callback_errors ++ [p.post_id] }

/-- The `for entry in entries` loop of RedditListener._poll_once
(lines 126-129): the `running` flag is checked before each item; it is
constant here because nothing inside the loop changes it (an external stop
request is modelled by the step machine below). -/
def process_batch {α : Type} (parseE : α → Option ParsedPost)
    (cbOk : ParsedPost → Bool) (running : Bool) (st : ListenerState) :
    List α → ListenerState
  | [] => st
  | e :: rest =>
    if running then
      process_batch parseE cbOk running (process_entry parseE cbOk st e) rest
    else
      st

/-- The priming block of RedditListener.start (lines 139-148): on a
successful initial fetch every parseable entry's id is added to
`seen_posts`; the callback is never invoked; a failed fetch leaves the
state untouched. -/
def prime {α : Type} (parseE : α → Option ParsedPost)
    (fetchResult : Option (List α)) (st : ListenerState) : ListenerState :=
  match fetchResult with
  | none => st
  | some entries =>
    { st with
      seen_posts := entries.foldl
        (fun s e =>
          match parseE e with
          | some p => addSeen s p.post_id
          | none => s)
        st.seen_posts }

/-- Outcome of one iteration of the while-loop body of
RedditListener.start (lines 151-173). -/
structure CycleResult where
  state : ListenerState
  consecutive_failures : Nat
  sleep_seconds : Nat
deriving Repr

/-- One polling cycle, given this cycle's fetch outcome (`none` = fetch
failed).  `_fetch_feed` catches every exception internally and returns
`None` on failure (lines 71-82), and `_poll_once` merely returns early on
a `None` feed (lines 116-119), so the `try` around `_poll_once` completes
normally on a fetch failure too and line 155 resets
`consecutive_failures` to 0 unconditionally; the `except` branch that
increments the counter is unreachable via a fetch failure.  Entries of a
successful fetch are processed oldest-first (`entries.reverse()`,
lines 123-124). -/
def poll_cycle {α : Type} (parseE : α → Option ParsedPost)
    (cbOk : ParsedPost → Bool) (pollInterval : Nat)
    (fetchResult : Option (List α)) (st : ListenerState)
    (_consecutive_failures : Nat) : CycleResult :=
  let st2 :=
    match fetchResult with
    | none => st
    | some entries => process_batch parseE cbOk true st entries.reverse
  { state := st2
    consecutive_failures := 0
    sleep_seconds := backoffSleep pollInterval 0 }

/-- Program points of the polling loop of RedditListener.start. -/
inductive LoopPC (α : Type) where
  | top
  | batch (remaining : List α)
  | sleepGate
  | stopped
deriving DecidableEq

/-- A configuration of the polling loop: the cooperative `running` flag
(cleared asynchronously by `stop()`), the program point, the listener
state, the failure counter, the index of the next fetch, and the log of
completed inter-cycle sleeps. -/
structure LoopCfg (α : Type) where
  running : Bool
  pc : LoopPC α
  st : ListenerState
  consecutive_failures : Nat
  cycle : Nat
  sleeps : List Nat

/-- Small-step semantics of the polling loop (lines 151-173 plus the item
loop of `_poll_once`): `top` is the `while self.running` check followed by
the fetch; `batch l` is the item loop with the `running` check before each
item; `sleepGate` is the `if self.running: time.sleep(...)` guard, whose
taken branch appends the computed sleep to the log; `stopped` is
absorbing.  Entering `sleepGate` records that the `try` completed, which
resets `consecutive_failures` to 0 (line 155). -/
def loop_step {α : Type} (parseE : α → Option ParsedPost)
    (cbOk : ParsedPost → Bool) (pollInterval : Nat)
    (fetches : Nat → Option (List α)) (cfg : LoopCfg α) : LoopCfg α :=
  match cfg.pc with
  | .top =>
    if cfg.running then
      match fetches cfg.cycle with
      | none =>
        { cfg with pc := .sleepGate, cycle := cfg.cycle + 1,
                   consecutive_failures := 0 }
      | some entries =>
        { cfg with pc := .batch entries.reverse, cycle := cfg.cycle + 1 }
    else
      { cfg with pc := .stopped }
  | .batch [] => { cfg with pc := .sleepGate, consecutive_failures := 0 }
  | .batch (e :: rest) =>
    if cfg.running then
      { cfg with pc := .batch rest, st := process_entry parseE cbOk cfg.st e }
    else
      { cfg with pc := .sleepGate, consecutive_failures := 0 }
  | .sleepGate =>
    if cfg.running then
      { cfg with pc := .top,
                 sleeps := cfg.sleeps ++
                   [backoffSleep pollInterval cfg.consecutive_failures] }
    else
      { cfg with pc := .top }
  | .stopped => cfg

/-- RedditListener.start up to the loop entry: `running = True`
(line 137), then priming from the empty `__init__` state, then the loop
begins at its top with `consecutive_failures = 0` (line 150). -/
def start_cfg {α : Type} (parseE : α → Option ParsedPost)
    (initialFetch : Option (List α)) : LoopCfg α :=
  { running := true
    pc := .top
    st := prime parseE initialFetch ListenerState.empty
    consecutive_failures := 0
    cycle := 0
    sleeps := [] }

/-- A concrete post used by the witnesses. -/
def samplePost : ParsedPost :=
  { post_id := pstr "abc123"
    title := pstr "53% off Lego Set"
    url := pstr "https://reddit.com/r/legodeal/comments/abc123/t/"
    selftext := pstr "body" }

/-- A concrete mid-batch loop configuration with the stop flag cleared,
used by witnesses. -/
def sampleCfg : LoopCfg (Option ParsedPost) :=
  { running := false
    pc := .batch [some samplePost]
    st := ListenerState.empty
    consecutive_failures := 2
    cycle := 5
    sleeps := [10] }

/-- The name/value pairs that `parse_qsl` recovers from `urlencode d`:
every entry key paired with each of its non-empty values, in order. -/
def fieldPairs : QDict → List (PyStr × PyStr)
  | [] => []
  | kv :: d =>
    kv.2.filterMap (fun v => if v = [] then none else some (kv.1, v)) ++
    fieldPairs d

/-! ## Theorems -/

/-- C2: between poll cycles the computed sleep equals the base interval
when `consecutive_failures = 0` and `min(base * 2^min(n,3), 60)` otherwise;
with base interval 10s and 1, 2, 3, 4 consecutive failures it equals
20s, 40s, 60s, 60s. -/
theorem c2_backoff_sleep :
    (∀ b n, backoffSleep b n =
      if n = 0 then b else min (b * 2 ^ min n 3) 60) ∧
    backoffSleep 10 1 = 20 ∧ backoffSleep 10 2 = 40 ∧
    backoffSleep 10 3 = 60 ∧ backoffSleep 10 4 = 60 := by
  refine ⟨fun b n => ?_, by decide, by decide, by decide, by decide⟩
  rcases n with _ | n <;> simp [backoffSleep]

/-- C3 (the code's actual behaviour): after a cycle whose fetch failed,
item processing is skipped, but `consecutive_failures` is reset to 0
rather than incremented — `_fetch_feed` swallows the failure and returns
`None`, `_poll_once` returns normally, and line 155 resets the counter;
after a successful cycle the counter is likewise 0. -/
theorem c3_failure_counter_reset {α : Type} (parseE : α → Option ParsedPost)
    (cbOk : ParsedPost → Bool) (b : Nat) (st : ListenerState) (n : Nat) :
    ((poll_cycle parseE cbOk b none st n).state = st ∧
     (poll_cycle parseE cbOk b none st n).consecutive_failures = 0 ∧
     (poll_cycle parseE cbOk b none st n).consecutive_failures ≠ n + 1) ∧
    (∀ entries,
      (poll_cycle parseE cbOk b (some entries) st n).consecutive_failures = 0) :=
  ⟨⟨rfl, rfl, fun h => Nat.succ_ne_zero n h.symm⟩, fun _ => rfl⟩

/-- C9: once `running` is false, the loop reaches `stopped` within three
steps from any program point — without recording any further inter-cycle
sleep and without processing any further item of a pending batch (the flag
is checked before each item). -/
theorem c9_stop_no_full_sleep {α : Type} (parseE : α → Option ParsedPost)
    (cbOk : ParsedPost → Bool) (b : Nat) (fetches : Nat → Option (List α))
    (cfg : LoopCfg α) (h : cfg.running = false) :
    (loop_step parseE cbOk b fetches
      (loop_step parseE cbOk b fetches
        (loop_step parseE cbOk b fetches cfg))).pc = LoopPC.stopped ∧
    (loop_step parseE cbOk b fetches
      (loop_step parseE cbOk b fetches
        (loop_step parseE cbOk b fetches cfg))).sleeps = cfg.sleeps ∧
    (loop_step parseE cbOk b fetches
      (loop_step parseE cbOk b fetches
        (loop_step parseE cbOk b fetches cfg))).st = cfg.st := by
  obtain ⟨r, pc, st, cf, cy, sl⟩ := cfg
  cases h
  rcases pc with _ | l | _ | _
  · simp [loop_step]
  · rcases l with _ | ⟨e, rest⟩ <;> simp [loop_step]
  · simp [loop_step]
  · simp [loop_step]

/-- Witness for C9 at a concrete stopped mid-batch configuration. -/
theorem c9_stop_no_full_sleep_witness :
    (loop_step (fun o : Option ParsedPost => o) (fun _ => true) 10
      (fun _ => none)
      (loop_step (fun o : Option ParsedPost => o) (fun _ => true) 10
        (fun _ => none)
        (loop_step (fun o : Option ParsedPost => o) (fun _ => true) 10
          (fun _ => none) sampleCfg))).pc = LoopPC.stopped ∧
    (loop_step (fun o : Option ParsedPost => o) (fun _ => true) 10
      (fun _ => none)
      (loop_step (fun o : Option ParsedPost => o) (fun _ => true) 10
        (fun _ => none)
        (loop_step (fun o : Option ParsedPost => o) (fun _ => true) 10
          (fun _ => none) sampleCfg))).sleeps = sampleCfg.sleeps ∧
    (loop_step (fun o : Option ParsedPost => o) (fun _ => true) 10
      (fun _ => none)
      (loop_step (fun o : Option ParsedPost => o) (fun _ => true) 10
        (fun _ => none)
        (loop_step (fun o : Option ParsedPost => o) (fun _ => true) 10
          (fun _ => none) sampleCfg))).st = sampleCfg.st :=
  c9_stop_no_full_sleep (fun o : Option ParsedPost => o) (fun _ => true) 10
    (fun _ => none) sampleCfg rfl

/-- C10: the embed description of the formatted payload is the first 2000
bytes of the post body when the body is non-empty and the literal
"No description" when it is empty. -/
theorem c10_embed_description (post : ParsedPost) (mention : Option PyStr) :
    (format_for_discord post mention).embeds.map DiscordEmbed.description =
      [if post.selftext = [] then pstr "No description"
       else post.selftext.take 2000] := by
  by_cases h : post.selftext = [] <;> simp [format_for_discord, h]

theorem mem_addSeen_self (s : List PyStr) (x : PyStr) : x ∈ addSeen s x := by
  unfold addSeen
  split
  · assumption
  · exact List.mem_cons_self x s

theorem mem_addSeen_of_mem {s : List PyStr} {y : PyStr} (x : PyStr)
    (h : y ∈ s) : y ∈ addSeen s x := by
  unfold addSeen
  split
  · exact h
  · exact List.mem_cons_of_mem x h

/-- Ids already in the seen set survive the priming fold. -/
theorem prime_fold_mono {α : Type} (parseE : α → Option ParsedPost)
    (entries : List α) (s0 : List PyStr) (x : PyStr) (h : x ∈ s0) :
    x ∈ entries.foldl
      (fun s e =>
        match parseE e with
        | some p => addSeen s p.post_id
        | none => s)
      s0 := by
  induction entries generalizing s0 with
  | nil => exact h
  | cons a as ih =>
    simp only [List.foldl_cons]
    apply ih
    cases parseE a with
    | none => exact h
    | some p => exact mem_addSeen_of_mem _ h

/-- Every parseable entry's id is in the result of the priming fold. -/
theorem prime_fold_mem {α : Type} (parseE : α → Option ParsedPost)
    (entries : List α) (s0 : List PyStr) (e : α) (p : ParsedPost)
    (he : e ∈ entries) (hp : parseE e = some p) :
    p.post_id ∈ entries.foldl
      (fun s e =>
        match parseE e with
        | some q => addSeen s q.post_id
        | none => s)
      s0 := by
  induction entries generalizing s0 with
  | nil => cases he
  | cons a as ih =>
    simp only [List.foldl_cons]
    rcases List.mem_cons.mp he with rfl | hmem
    · rw [hp]
      exact prime_fold_mono parseE as _ _ (mem_addSeen_self _ _)
    · exact ih _ hmem

/-- C8: priming never invokes the notify callback and records every
parseable entry's id in the seen set; when the initial fetch fails, the
poller still enters the polling loop (`running = true`, program counter at
the loop top) with an empty seen set. -/
theorem c8_priming_silent {α : Type} (parseE : α → Option ParsedPost) :
    ((start_cfg parseE (none : Option (List α))).st.seen_posts = [] ∧
     (start_cfg parseE (none : Option (List α))).pc = LoopPC.top ∧
     (start_cfg parseE (none : Option (List α))).running = true) ∧
    (∀ fetchResult,
      (prime parseE fetchResult ListenerState.empty).notified = []) ∧
    (∀ entries (e : α) (p : ParsedPost), e ∈ entries → parseE e = some p →
      p.post_id ∈ (prime parseE (some entries) ListenerState.empty).seen_posts) := by
  refine ⟨⟨rfl, rfl, rfl⟩, fun fr => ?_, fun entries e p he hp => ?_⟩
  · cases fr <;> rfl
  · exact prime_fold_mem parseE entries [] e p he hp

/-- Processing an entry never removes an id from the seen set. -/
theorem process_entry_seen_mono {α : Type} (parseE : α → Option ParsedPost)
    (cbOk : ParsedPost → Bool) (st : ListenerState) (e : α) {x : PyStr}
    (h : x ∈ st.seen_posts) :
    x ∈ (process_entry parseE cbOk st e).seen_posts := by
  unfold process_entry
  cases parseE e with
  | none => exact h
  | some p =>
    simp only
    split
    · exact h
    · exact mem_addSeen_of_mem _ h

/-- The seen set and the notification log after processing an entry do not
depend on whether the callback raises: only the error log does.  This is
the `try`/`except` of lines 107-110: the id is added to `seen_posts`
before the callback is invoked, and an exception is only logged. -/
theorem process_entry_callback_indep {α : Type} (parseE : α → Option ParsedPost)
    (cb cb' : ParsedPost → Bool) {s t : ListenerState} (e : α)
    (hs : s.seen_posts = t.seen_posts) (hn : s.notified = t.notified) :
    (process_entry parseE cb s e).seen_posts
      = (process_entry parseE cb' t e).seen_posts ∧
    (process_entry parseE cb s e).notified
      = (process_entry parseE cb' t e).notified := by
  unfold process_entry
  cases parseE e with
  | none => exact ⟨hs, hn⟩
  | some p =>
    simp only [hs, hn]
    split
    · exact ⟨hs, hn⟩
    · exact ⟨rfl, rfl⟩

/-- Batch version of `process_entry_callback_indep`: a raising callback
changes neither which ids get marked seen nor which notifications are
attempted for the rest of the batch. -/
theorem process_batch_callback_indep {α : Type} (parseE : α → Option ParsedPost)
    (cb cb' : ParsedPost → Bool) (es : List α) {s t : ListenerState}
    (hs : s.seen_posts = t.seen_posts) (hn : s.notified = t.notified) :
    (process_batch parseE cb true s es).seen_posts
      = (process_batch parseE cb' true t es).seen_posts ∧
    (process_batch parseE cb true s es).notified
      = (process_batch parseE cb' true t es).notified := by
  induction es generalizing s t with
  | nil => exact ⟨hs, hn⟩
  | cons e rest ih =>
    simp only [process_batch, if_pos trivial]
    obtain ⟨hs2, hn2⟩ := process_entry_callback_indep parseE cb cb' e hs hn
    exact ih hs2 hn2

/-- C1: feeding two entries that parse to the same post id through the
per-item processing step notifies at most once across the pair; the id
ends up in `seen_posts` whether or not the callback raises; and the seen
set and notification log of a whole batch are independent of callback
failures, each item being processed in sequence regardless. -/
theorem c1_dedup_at_most_once {α : Type} (parseE : α → Option ParsedPost)
    (cbOk : ParsedPost → Bool) (st : ListenerState) (e1 e2 : α)
    (p q : ParsedPost) (h1 : parseE e1 = some p) (h2 : parseE e2 = some q)
    (hq : q.post_id = p.post_id) :
    ((process_entry parseE cbOk (process_entry parseE cbOk st e1) e2).notified.count
        p.post_id ≤ st.notified.count p.post_id + 1) ∧
    p.post_id ∈
      (process_entry parseE cbOk (process_entry parseE cbOk st e1) e2).seen_posts ∧
    (∀ (cb cb' : ParsedPost → Bool) (es : List α),
      (process_batch parseE cb true st es).seen_posts
        = (process_batch parseE cb' true st es).seen_posts ∧
      (process_batch parseE cb true st es).notified
        = (process_batch parseE cb' true st es).notified) ∧
    (∀ (cb : ParsedPost → Bool) (es : List α),
      process_batch parseE cb true st (e1 :: es)
        = process_batch parseE cb true (process_entry parseE cb st e1) es) := by
  have hstep : ∀ s : ListenerState,
      p.post_id ∈ s.seen_posts →
      process_entry parseE cbOk s e2 = s := by
    intro s hmem
    unfold process_entry
    rw [h2]
    simp only [hq, if_pos hmem]
  constructor
  · by_cases hmem : p.post_id ∈ st.seen_posts
    · have hfix : process_entry parseE cbOk st e1 = st := by
        unfold process_entry
        rw [h1]
        simp only [if_pos hmem]
      rw [hfix, hstep st hmem]
      exact Nat.le_succ _
    · have hfst : process_entry parseE cbOk st e1 =
          { seen_posts := addSeen st.seen_posts p.post_id
            notified := st.notified ++ [p.post_id]
            callback_errors :=
              if cbOk p then st.callback_errors
              else st.callback_errors ++ [p.post_id] } := by
        unfold process_entry
        rw [h1]
        simp only [if_neg hmem]
      rw [hfst, hstep _ (mem_addSeen_self _ _)]
      simp [List.count_append]
  refine ⟨?_, fun cb cb' es => process_batch_callback_indep parseE cb cb' es rfl rfl,
          fun cb es => by simp [process_batch]⟩
  · have h1m : p.post_id ∈ (process_entry parseE cbOk st e1).seen_posts := by
      unfold process_entry
      rw [h1]
      simp only
      split
      · assumption
      · exact mem_addSeen_self _ _
    exact process_entry_seen_mono parseE cbOk _ e2 h1m

/-- Witness for C1 at a concrete pair of identical entries and a callback
that always raises. -/
theorem c1_dedup_at_most_once_witness :
    ((process_entry (fun o => o) (fun _ => false)
        (process_entry (fun o => o) (fun _ => false) ListenerState.empty
          (some samplePost)) (some samplePost)).notified.count
        samplePost.post_id ≤ ListenerState.empty.notified.count samplePost.post_id + 1) ∧
    samplePost.post_id ∈
      (process_entry (fun o => o) (fun _ => false)
        (process_entry (fun o => o) (fun _ => false) ListenerState.empty
          (some samplePost)) (some samplePost)).seen_posts ∧
    (∀ (cb cb' : ParsedPost → Bool) (es : List (Option ParsedPost)),
      (process_batch (fun o => o) cb true ListenerState.empty es).seen_posts
        = (process_batch (fun o => o) cb' true ListenerState.empty es).seen_posts ∧
      (process_batch (fun o => o) cb true ListenerState.empty es).notified
        = (process_batch (fun o => o) cb' true ListenerState.empty es).notified) ∧
    (∀ (cb : ParsedPost → Bool) (es : List (Option ParsedPost)),
      process_batch (fun o => o) cb true ListenerState.empty (some samplePost :: es)
        = process_batch (fun o => o) cb true
            (process_entry (fun o => o) cb ListenerState.empty (some samplePost)) es) :=
  c1_dedup_at_most_once (fun o => o) (fun _ => false) ListenerState.empty
    (some samplePost) (some samplePost) samplePost samplePost rfl rfl rfl

/-- Witness for C8: a failed priming fetch leaves an empty seen set at
the loop entry, and a concrete parseable entry's id is recorded by a
successful priming fetch. -/
theorem c8_priming_silent_witness :
    (start_cfg (fun o : Option ParsedPost => o) none).st.seen_posts = [] ∧
    samplePost.post_id ∈ (prime (fun o : Option ParsedPost => o)
      (some [some samplePost]) ListenerState.empty).seen_posts :=
  ⟨(c8_priming_silent (fun o : Option ParsedPost => o)).1.1,
   (c8_priming_silent (fun o : Option ParsedPost => o)).2.2
     [some samplePost] (some samplePost) samplePost
     (List.mem_cons_self _ _) rfl⟩

theorem mem_of_mem_digitSpan_snd {l : PyStr} {b : Byte}
    (h : b ∈ (digitSpan l).2) : b ∈ l := by
  induction l with
  | nil => simp [digitSpan] at h
  | cons c s ih =>
    by_cases hd : isDigitByte c
    · simp only [digitSpan, hd, if_pos] at h
      exact List.mem_cons_of_mem c (ih h)
    · simp only [digitSpan, hd] at h
      simpa using h

/-- A bare-percent match implies the title contains a `%` byte. -/
theorem findPct_mem_pct {l : PyStr} {v : Nat} (h : findPct l = some v) :
    (37 : Byte) ∈ l := by
  induction l with
  | nil => simp [findPct] at h
  | cons b s ih =>
    by_cases hd : isDigitByte b
    · simp only [findPct, hd, if_pos] at h
      rcases hp : (digitSpan (b :: s)).2 with _ | ⟨c, r⟩
      · rw [hp] at h
        exact List.mem_cons_of_mem b (ih h)
      · rw [hp] at h
        have h' : (if (c == (37 : Byte)) = true then
            some (digitsToNat (digitSpan (b :: s)).1) else findPct s) = some v := h
        by_cases hc : c = (37 : Byte)
        · subst hc
          exact mem_of_mem_digitSpan_snd (hp ▸ List.mem_cons_self _ _)
        · rw [beq_eq_false_iff_ne.mpr hc] at h'
          simp only [Bool.false_eq_true, if_false] at h'
          exact List.mem_cons_of_mem b (ih h')
    · simp only [findPct, hd] at h
      exact List.mem_cons_of_mem b (ih h)

theorem containsSub_single_of_mem {b : Byte} {s : PyStr} (h : b ∈ s) :
    containsSub [b] s = true := by
  induction s with
  | nil => cases h
  | cons c t ih =>
    rcases List.mem_cons.mp h with rfl | hmem
    · simp [containsSub, hasPre]
    · simp [containsSub, ih hmem]

/-- C4 counterexample: on the title "Save 17%" — which does not match
`<digits>% off`, has no `/`, no "off", and only the single matched `%` —
discount extraction returns 17, not none as the claim states. -/
theorem c4_counterexample_save17 :
    extract_discount_percentage (pstr "Save 17%") = some 17 ∧
    extract_discount_percentage (pstr "Save 17%") ≠ none := by
  refine ⟨by decide, by decide⟩

/-- C4 amended: whenever pattern 1 (`<digits>% off`) fails and a bare
`<digits>%` match yields a value in [1,100], extraction returns that value
unconditionally — the keyword check `any(k in title.lower() for k in
['off', '%', '/'])` is always satisfied because the matched `%` itself is
in the title. -/
theorem c4_amended_bare_percent (title : PyStr) (v : Nat)
    (h1 : findPctOff title = none) (h2 : findPct title = some v)
    (hlo : 1 ≤ v) (hhi : v ≤ 100) :
    extract_discount_percentage title = some v := by
  have hne : title ≠ [] := by
    rintro rfl
    simp [findPct] at h2
  have hmem : (37 : Byte) ∈ title := findPct_mem_pct h2
  have hmeml : (37 : Byte) ∈ pyLower title := by
    refine List.mem_map.mpr ⟨37, hmem, by decide⟩
  have hctx : containsSub (pstr "%") (pyLower title) = true := by
    have : pstr "%" = [(37 : Byte)] := by decide
    rw [this]
    exact containsSub_single_of_mem hmeml
  unfold extract_discount_percentage
  rw [if_neg hne, h1, h2]
  simp only [if_pos (And.intro hlo hhi), hctx, Bool.true_or, Bool.or_true, if_pos]

/-- Witness for the amended C4 at the concrete title "Save 17%". -/
theorem c4_amended_bare_percent_witness :
    findPctOff (pstr "Save 17%") = none ∧
    findPct (pstr "Save 17%") = some 17 ∧
    extract_discount_percentage (pstr "Save 17%") = some 17 :=
  ⟨by decide, by decide,
   c4_amended_bare_percent (pstr "Save 17%") 17 (by decide) (by decide)
     (by decide) (by decide)⟩

/-- C5: on the title "150% off", pattern 1 returns its digits without any
range check, so extraction yields 150 > 100, and a feed entry with that
title parses to a Post whose `discount_percentage` is 150 — contradicting
the function's own docstring range "(0-100)" and the spec invariant. -/
theorem c5_discount_range_violation :
    extract_discount_percentage (pstr "150% off") = some 150 ∧
    100 < 150 ∧
    (parse_feed_entry (fun _ => ([], [], []))
        ⟨fun _ => true, fun _ => true⟩
        { link := some (pstr "https://reddit.com/r/legodeal/comments/x150/t/")
          title := some (pstr "150% off") }
        none).map ParsedPost.discount_percentage = some (some 150) := by
  refine ⟨by decide, by decide, by decide⟩

/-- C6: for any HTML-cleaning behaviour, parsing returns nothing when the
link has no `/comments/<id>/` segment or the title is empty after
trimming, and otherwise returns a Post whose `post_id` is the segment
captured between `/comments/` and the next `/`. -/
theorem c6_parse_gate (cleanHtml : PyStr → PyStr × List PyStr × List PyStr)
    (ck : NetlocChecks) (entry : FeedEntry) (tag : Option PyStr) :
    (findCommentsId (entry.link.getD []) = none →
      parse_feed_entry cleanHtml ck entry tag = none) ∧
    (pyStrip (entry.title.getD []) = [] →
      parse_feed_entry cleanHtml ck entry tag = none) ∧
    (∀ pid, findCommentsId (entry.link.getD []) = some pid →
      pyStrip (entry.title.getD []) ≠ [] →
      ∃ post, parse_feed_entry cleanHtml ck entry tag = some post ∧
        post.post_id = pid) := by
  refine ⟨fun h => ?_, fun h => ?_, fun pid h1 h2 => ?_⟩
  · simp only [parse_feed_entry]
    rw [h]
  · cases hf : findCommentsId (entry.link.getD []) with
    | none =>
      simp only [parse_feed_entry]
      rw [hf]
    | some pid =>
      simp only [parse_feed_entry]
      rw [hf]
      simp [h]
  · simp only [parse_feed_entry]
    rw [h1]
    simp only [if_neg h2]
    exact ⟨_, rfl, rfl⟩

/-- Witness for C6: a link without an id segment, a whitespace-only title,
and a well-formed entry, all at a concrete trivial HTML cleaner. -/
theorem c6_parse_gate_witness :
    parse_feed_entry (fun _ => ([], [], [])) ⟨fun _ => true, fun _ => true⟩
      { link := some (pstr "https://reddit.com/r/legodeal/new/"),
        title := some (pstr "Nice set") } none = none ∧
    parse_feed_entry (fun _ => ([], [], [])) ⟨fun _ => true, fun _ => true⟩
      { link := some (pstr "https://reddit.com/r/legodeal/comments/abc123/t/"),
        title := some (pstr "   ") } none = none ∧
    ∃ post,
      parse_feed_entry (fun _ => ([], [], [])) ⟨fun _ => true, fun _ => true⟩
        { link := some (pstr "https://reddit.com/r/legodeal/comments/abc123/t/"),
          title := some (pstr "Nice set") } none = some post ∧
      post.post_id = pstr "abc123" :=
  ⟨(c6_parse_gate (fun _ => ([], [], [])) ⟨fun _ => true, fun _ => true⟩
      { link := some (pstr "https://reddit.com/r/legodeal/new/"),
        title := some (pstr "Nice set") } none).1 (by decide),
   (c6_parse_gate (fun _ => ([], [], [])) ⟨fun _ => true, fun _ => true⟩
      { link := some (pstr "https://reddit.com/r/legodeal/comments/abc123/t/"),
        title := some (pstr "   ") } none).2.1 (by decide),
   (c6_parse_gate (fun _ => ([], [], [])) ⟨fun _ => true, fun _ => true⟩
      { link := some (pstr "https://reddit.com/r/legodeal/comments/abc123/t/"),
        title := some (pstr "Nice set") } none).2.2 (pstr "abc123")
      (by decide) (by decide)⟩

/-! ### Lemmas towards C7: quoting roundtrip and query reassembly -/

/-- No byte emitted by `quoteByte` is `#`, `?`, `&` or `=`. -/
theorem quoteByte_no_special :
    ∀ b : Byte, (quoteByte b).all
      (fun c => !(c == (35 : Byte) || (c == (63 : Byte) ||
        (c == (38 : Byte) || c == (61 : Byte))))) = true := by decide

theorem mem_quotePlus_no_special {s : PyStr} {c : Byte}
    (h : c ∈ quotePlus s) :
    c ≠ (35 : Byte) ∧ c ≠ (63 : Byte) ∧ c ≠ (38 : Byte) ∧ c ≠ (61 : Byte) := by
  induction s with
  | nil => cases h
  | cons b t ih =>
    rcases List.mem_append.mp h with hb | ht
    · have hall := quoteByte_no_special b
      rw [List.all_eq_true] at hall
      have := hall c hb
      simp only [Bool.not_eq_eq_eq_not, Bool.not_true, Bool.or_eq_false_iff,
        beq_eq_false_iff_ne] at this
      exact ⟨this.1, this.2.1, this.2.2.1, this.2.2.2⟩
    · exact ih ht

/-- A safe byte is kept verbatim and is neither `%` nor `+` nor a space
escape. -/
theorem isAlwaysSafe_ne : ∀ b : Byte, isAlwaysSafe b = true →
    b.val ≠ 37 ∧ b.val ≠ 43 ∧ b.val ≠ 32 := by decide

/-- The hex digits emitted for a byte decode back to its nibbles and are
not `+`. -/
theorem hexDig_spec : ∀ b : Byte,
    hexVal (hexDig (b.val / 16)) = some (b.val / 16) ∧
    (hexDig (b.val / 16)).val ≠ 43 ∧
    hexVal (hexDig b.val) = some (b.val % 16) ∧
    (hexDig b.val).val ≠ 43 := by decide

/-- A byte other than `%` decodes to itself. -/
theorem unquoteB_cons_ne {b : Byte} (h : b.val ≠ 37) (t : PyStr) :
    unquoteB (b :: t) = b :: unquoteB t := by
  match t with
  | [] => simp [unquoteB, h]
  | [x] => simp [unquoteB, h]
  | x :: y :: v => simp [unquoteB, h]

/-- A `%XX` escape with two hex digits decodes to the escaped byte. -/
theorem unquoteB_escape {d1 d2 : Byte} {x y : Nat} (h1 : hexVal d1 = some x)
    (h2 : hexVal d2 = some y) (t : PyStr) :
    unquoteB ((37 : Byte) :: d1 :: d2 :: t) = hexByte x y :: unquoteB t := by
  have h37 : ((37 : Byte)).val = 37 := by decide
  simp [unquoteB, h1, h2, h37]

/-- Decoding one encoded chunk in front of any tail yields the original
byte followed by the decoded tail. -/
theorem unquoteB_chunk (b : Byte) (t : PyStr) :
    unquoteB (plusToSpace (quoteByte b) ++ t) = b :: unquoteB t := by
  by_cases hs : isAlwaysSafe b = true
  · obtain ⟨h37, h43, _⟩ := isAlwaysSafe_ne b hs
    have hch : plusToSpace (quoteByte b) = [b] := by
      simp [quoteByte, hs, plusToSpace, h43]
    rw [hch, List.singleton_append]
    exact unquoteB_cons_ne h37 t
  · by_cases h32 : b.val = 32
    · have hb : b = (32 : Byte) := Fin.ext h32
      subst hb
      have hch : plusToSpace (quoteByte (32 : Byte)) = [(32 : Byte)] := by decide
      rw [hch, List.singleton_append]
      exact unquoteB_cons_ne (by decide) t
    · obtain ⟨e1, n1, e2, n2⟩ := hexDig_spec b
      have h374 : ((37 : Byte)).val ≠ 43 := by decide
      have hch : plusToSpace (quoteByte b) =
          [(37 : Byte), hexDig (b.val / 16), hexDig b.val] := by
        simp [quoteByte, hs, h32, plusToSpace, n1, n2, h374]
      rw [hch]
      rw [show ([(37 : Byte), hexDig (b.val / 16), hexDig b.val] ++ t)
            = (37 : Byte) :: hexDig (b.val / 16) :: hexDig b.val :: t from rfl]
      rw [unquoteB_escape e1 e2 t]
      congr 1
      apply Fin.ext
      show (16 * (b.val / 16) + b.val % 16) % 256 = b.val
      have hv : 16 * (b.val / 16) + b.val % 16 = b.val := by omega
      rw [hv, Nat.mod_eq_of_lt b.isLt]

/-- The decoding of `parse_qsl` inverts the encoding of `urlencode`. -/
theorem unquotePlus_quotePlus (s : PyStr) : unquotePlusB (quotePlus s) = s := by
  induction s with
  | nil => decide
  | cons b t ih =>
    show unquoteB (plusToSpace (quotePlus (b :: t))) = b :: t
    rw [show quotePlus (b :: t) = quoteByte b ++ quotePlus t from rfl]
    rw [show plusToSpace (quoteByte b ++ quotePlus t)
          = plusToSpace (quoteByte b) ++ plusToSpace (quotePlus t) from
        List.map_append _ _ _]
    rw [unquoteB_chunk]
    exact congrArg (b :: ·) ih

theorem quoteByte_ne_nil : ∀ b : Byte, quoteByte b ≠ [] := by decide

theorem quotePlus_eq_nil_iff (s : PyStr) : quotePlus s = [] ↔ s = [] := by
  cases s with
  | nil => simp [quotePlus]
  | cons b t =>
    simp only [quotePlus, List.append_eq_nil]
    exact ⟨fun h => absurd h.1 (quoteByte_ne_nil b), fun h => by cases h⟩

/-! Splitting and joining on a separator byte. -/

theorem splitOnB_not_mem {sep : Byte} {s : PyStr} (h : sep ∉ s) :
    splitOnB sep s = [s] := by
  induction s with
  | nil => rfl
  | cons b t ih =>
    have hne : ¬ b = sep := fun e => h (by rw [e]; exact List.mem_cons_self _ _)
    have ht : sep ∉ t := fun m => h (List.mem_cons_of_mem _ m)
    simp [splitOnB, beq_eq_false_iff_ne.mpr hne, ih ht]

theorem splitOnB_append {sep : Byte} {a : PyStr} (r : PyStr) (h : sep ∉ a) :
    splitOnB sep (a ++ sep :: r) = a :: splitOnB sep r := by
  induction a with
  | nil => simp [splitOnB]
  | cons b t ih =>
    have hne : ¬ b = sep := fun e => h (by rw [e]; exact List.mem_cons_self _ _)
    have ht : sep ∉ t := fun m => h (List.mem_cons_of_mem _ m)
    simp [splitOnB, beq_eq_false_iff_ne.mpr hne, ih ht, List.append_eq]

theorem splitOnB_joinSepB (ps : List PyStr) (hne : ps ≠ [])
    (hfree : ∀ p ∈ ps, (38 : Byte) ∉ p) :
    splitOnB 38 (joinSepB 38 ps) = ps := by
  induction ps with
  | nil => exact absurd rfl hne
  | cons x xs ih =>
    cases xs with
    | nil => exact splitOnB_not_mem (hfree x (List.mem_cons_self _ _))
    | cons y ys =>
      rw [show joinSepB 38 (x :: y :: ys) = x ++ 38 :: joinSepB 38 (y :: ys)
            from rfl]
      rw [splitOnB_append _ (hfree x (List.mem_cons_self _ _))]
      rw [ih (by simp) (fun p hp => hfree p (List.mem_cons_of_mem _ hp))]

theorem joinSepB_ne_nil {sep : Byte} {ps : List PyStr} (hne : ps ≠ [])
    (hel : ∀ p ∈ ps, p ≠ []) : joinSepB sep ps ≠ [] := by
  cases ps with
  | nil => exact absurd rfl hne
  | cons x xs =>
    cases xs with
    | nil => exact hel x (List.mem_cons_self _ _)
    | cons y ys => simp [joinSepB]

theorem splitFirstD_not_mem {sep : Byte} {s : PyStr} (h : sep ∉ s) :
    splitFirstD sep s = (s, []) := by
  induction s with
  | nil => rfl
  | cons b t ih =>
    have hne : ¬ b = sep := fun e => h (by rw [e]; exact List.mem_cons_self _ _)
    have ht : sep ∉ t := fun m => h (List.mem_cons_of_mem _ m)
    simp [splitFirstD, beq_eq_false_iff_ne.mpr hne, ih ht]

theorem splitFirstD_append {sep : Byte} {a : PyStr} (r : PyStr)
    (h : sep ∉ a) : splitFirstD sep (a ++ sep :: r) = (a, r) := by
  induction a with
  | nil => simp [splitFirstD]
  | cons b t ih =>
    have hne : ¬ b = sep := fun e => h (by rw [e]; exact List.mem_cons_self _ _)
    have ht : sep ∉ t := fun m => h (List.mem_cons_of_mem _ m)
    simp [splitFirstD, beq_eq_false_iff_ne.mpr hne, ih ht, List.append_eq]

theorem not_mem_splitFirstD_fst (sep : Byte) (s : PyStr) :
    sep ∉ (splitFirstD sep s).1 := by
  induction s with
  | nil => simp [splitFirstD]
  | cons b t ih =>
    by_cases hb : b = sep
    · subst hb
      simp [splitFirstD]
    · simp only [splitFirstD, beq_eq_false_iff_ne.mpr hb]
      intro hmem
      rcases List.mem_cons.mp hmem with h | h
      · exact hb h.symm
      · exact ih h

theorem mem_splitFirstD_fst {sep c : Byte} {s : PyStr}
    (h : c ∈ (splitFirstD sep s).1) : c ∈ s := by
  induction s with
  | nil => simp [splitFirstD] at h
  | cons b t ih =>
    by_cases hb : b = sep
    · subst hb
      simp [splitFirstD] at h
    · simp only [splitFirstD, beq_eq_false_iff_ne.mpr hb] at h
      rcases List.mem_cons.mp h with h | h
      · exact h ▸ List.mem_cons_self _ _
      · exact List.mem_cons_of_mem _ (ih h)

/-! Decoding an encoded query. -/

theorem encodeField_ne_nil (k v : PyStr) : encodeField k v ≠ [] := by
  simp [encodeField]

theorem not_mem_38_encodeField (k v : PyStr) :
    (38 : Byte) ∉ encodeField k v := by
  intro h
  rcases List.mem_append.mp h with h | h
  · exact (mem_quotePlus_no_special h).2.2.1 rfl
  · rcases List.mem_cons.mp h with h | h
    · exact absurd h (by decide)
    · exact (mem_quotePlus_no_special h).2.2.1 rfl

theorem encodeFields_props (d : QDict) :
    ∀ f ∈ encodeFields d, (38 : Byte) ∉ f ∧ f ≠ [] := by
  induction d with
  | nil => intro f hf; cases hf
  | cons kv rest ih =>
    intro f hf
    rcases List.mem_append.mp hf with hf | hf
    · obtain ⟨v, _, rfl⟩ := List.mem_map.mp hf
      exact ⟨not_mem_38_encodeField _ _, encodeField_ne_nil _ _⟩
    · exact ih f hf

theorem parseQslChunk_encodeField (k v : PyStr) :
    parseQslChunk (encodeField k v) = if v = [] then none else some (k, v) := by
  unfold parseQslChunk
  rw [if_neg (encodeField_ne_nil k v)]
  have hmem : (61 : Byte) ∈ encodeField k v :=
    List.mem_append.mpr (Or.inr (List.mem_cons_self _ _))
  rw [if_pos hmem]
  have hsp : splitFirstD 61 (encodeField k v) = (quotePlus k, quotePlus v) :=
    splitFirstD_append _ (fun h => (mem_quotePlus_no_special h).2.2.2 rfl)
  simp only [hsp]
  by_cases hv : v = []
  · simp [hv, quotePlus_eq_nil_iff]
  · rw [if_neg (fun h => hv ((quotePlus_eq_nil_iff v).mp h)), if_neg hv]
    rw [unquotePlus_quotePlus, unquotePlus_quotePlus]

theorem filterMap_encodeFields (d : QDict) :
    (encodeFields d).filterMap parseQslChunk = fieldPairs d := by
  induction d with
  | nil => rfl
  | cons kv rest ih =>
    simp only [encodeFields, fieldPairs, List.filterMap_append, ih]
    congr 1
    rw [List.filterMap_map]
    apply List.filterMap_congr
    intro v _
    exact parseQslChunk_encodeField kv.1 v

/-- `parse_qsl` of an `urlencode`d dict recovers exactly the key/value
pairs with non-empty values. -/
theorem parse_qsl_urlencode (d : QDict) (hne : encodeFields d ≠ []) :
    parse_qsl_model (urlencodeB d) = fieldPairs d := by
  have hqs : urlencodeB d ≠ [] :=
    joinSepB_ne_nil hne (fun p hp => (encodeFields_props d p hp).2)
  unfold parse_qsl_model
  simp only [if_neg hqs]
  rw [show urlencodeB d = joinSepB 38 (encodeFields d) from rfl,
    splitOnB_joinSepB _ hne (fun p hp => (encodeFields_props d p hp).1),
    filterMap_encodeFields]

/-! Dict bookkeeping of parse_qs and the tag assignment. -/

theorem any_beq_iff_mem_keys (d : QDict) (k : PyStr) :
    d.any (fun e => e.1 == k) = true ↔ k ∈ d.map Prod.fst := by
  rw [List.any_eq_true]
  constructor
  · rintro ⟨e, he, hbeq⟩
    exact List.mem_map.mpr ⟨e, he, eq_of_beq hbeq⟩
  · intro hk
    obtain ⟨e, he, hfst⟩ := List.mem_map.mp hk
    exact ⟨e, he, beq_iff_eq.mpr hfst⟩

theorem dictAppend_keys (d : QDict) (k : PyStr) (v : PyStr) :
    (dictAppend d k v).map Prod.fst =
      if k ∈ d.map Prod.fst then d.map Prod.fst
      else d.map Prod.fst ++ [k] := by
  unfold dictAppend
  by_cases h : d.any (fun e => e.1 == k) = true
  · rw [if_pos h, if_pos ((any_beq_iff_mem_keys d k).mp h), List.map_map]
    apply List.map_congr_left
    intro e _
    by_cases hb : e.1 = k <;> simp [hb]
  · have hk : k ∉ d.map Prod.fst :=
      fun hm => h ((any_beq_iff_mem_keys d k).mpr hm)
    rw [if_neg h, if_neg hk, List.map_append]
    rfl

theorem dictAppend_keys_nodup {d : QDict} {k : PyStr} {v : PyStr}
    (h : (d.map Prod.fst).Nodup) :
    ((dictAppend d k v).map Prod.fst).Nodup := by
  rw [dictAppend_keys]
  by_cases hk : k ∈ d.map Prod.fst
  · rwa [if_pos hk]
  · rw [if_neg hk]
    simp only [List.nodup_append, List.nodup_cons, List.not_mem_nil,
      not_false_iff, List.nodup_nil, and_true, true_and]
    exact ⟨h, fun a ha => by
      simp only [List.mem_singleton]
      exact fun e => hk (e ▸ ha)⟩

theorem parse_qs_keys_nodup (qs : PyStr) :
    ((parse_qs_model qs).map Prod.fst).Nodup := by
  unfold parse_qs_model
  generalize parse_qsl_model qs = pairs
  suffices h : ∀ d0 : QDict, (d0.map Prod.fst).Nodup →
      ((pairs.foldl (fun d kv => dictAppend d kv.1 kv.2) d0).map
        Prod.fst).Nodup by
    exact h [] (by simp)
  induction pairs with
  | nil => exact fun d0 h => h
  | cons kv rest ih =>
    intro d0 h
    exact ih _ (dictAppend_keys_nodup h)

theorem dictSet_cons_ne {e : PyStr × List PyStr} {rest : QDict}
    {k : PyStr} {vs : List PyStr} (h : e.1 ≠ k) :
    dictSet (e :: rest) k vs = e :: dictSet rest k vs := by
  have hbeq : (e.1 == k) = false := beq_eq_false_iff_ne.mpr h
  by_cases hr : rest.any (fun x => x.1 == k) = true
  · simp [dictSet, List.any_cons, hbeq, hr, h]
  · simp [dictSet, List.any_cons, hbeq, hr, h]

theorem map_dictSet_id {rest : QDict} {k : PyStr} {vs : List PyStr}
    (h : ∀ x ∈ rest, x.1 ≠ k) :
    rest.map (fun x => if x.1 == k then (x.1, vs) else x) = rest := by
  induction rest with
  | nil => rfl
  | cons x xs ih =>
    have hbeq : (x.1 == k) = false :=
      beq_eq_false_iff_ne.mpr (h x (List.mem_cons_self _ _))
    simp only [List.map_cons, hbeq, Bool.false_eq_true, if_false,
      ih (fun y hy => h y (List.mem_cons_of_mem _ hy))]

theorem dictSet_cons_eq {e : PyStr × List PyStr} {rest : QDict}
    {k : PyStr} {vs : List PyStr} (h : e.1 = k)
    (hrest : ∀ x ∈ rest, x.1 ≠ k) :
    dictSet (e :: rest) k vs = (k, vs) :: rest := by
  obtain ⟨ek, ev⟩ := e
  cases h
  simp only [dictSet, List.any_cons, beq_self_eq_true, Bool.true_or,
    if_pos, List.map_cons, beq_self_eq_true]
  rw [map_dictSet_id hrest]

theorem dictSet_decomp (d : QDict) (k : PyStr) (vs : List PyStr)
    (h : (d.map Prod.fst).Nodup) :
    ∃ pre post, dictSet d k vs = pre ++ (k, vs) :: post ∧
      (∀ e ∈ pre, e.1 ≠ k) ∧ (∀ e ∈ post, e.1 ≠ k) := by
  induction d with
  | nil =>
    refine ⟨[], [], ?_, by simp, by simp⟩
    rfl
  | cons e rest ih =>
    have hnd := List.nodup_cons.mp
      (show (e.1 :: rest.map Prod.fst).Nodup from h)
    by_cases he : e.1 = k
    · have hrest : ∀ x ∈ rest, x.1 ≠ k := by
        intro x hx hxk
        exact hnd.1 (List.mem_map.mpr ⟨x, hx, hxk.trans he.symm⟩)
      exact ⟨[], rest, by rw [dictSet_cons_eq he hrest]; rfl, by simp, hrest⟩
    · obtain ⟨pre, post, heq, hpre, hpost⟩ := ih hnd.2
      refine ⟨e :: pre, post, ?_, ?_, hpost⟩
      · rw [dictSet_cons_ne he, heq]
        rfl
      · intro x hx
        rcases List.mem_cons.mp hx with rfl | hx
        · exact he
        · exact hpre x hx

theorem fieldPairs_append (a b : QDict) :
    fieldPairs (a ++ b) = fieldPairs a ++ fieldPairs b := by
  induction a with
  | nil => rfl
  | cons kv rest ih => simp [fieldPairs, ih]

theorem encodeFields_ne_nil_of_mem {D : QDict} {k : PyStr}
    {vs : List PyStr} (h : (k, vs) ∈ D) (hvs : vs ≠ []) :
    encodeFields D ≠ [] := by
  induction D with
  | nil => cases h
  | cons kv rest ih =>
    simp only [encodeFields, ne_eq, List.append_eq_nil, not_and]
    intro hmap
    rcases List.mem_cons.mp h with rfl | hmem
    · rw [List.map_eq_nil_iff] at hmap
      exact absurd hmap hvs
    · exact ih hmem

theorem tagFilter_nil_of_ne {D : QDict}
    (h : ∀ e ∈ D, e.1 ≠ pstr "tag") :
    (fieldPairs D).filterMap
      (fun kv => if kv.1 = pstr "tag" then some kv.2 else none) = [] := by
  rw [List.filterMap_eq_nil_iff]
  intro kv hkv
  induction D with
  | nil => cases hkv
  | cons e rest ih =>
    rcases List.mem_append.mp hkv with hm | hm
    · obtain ⟨v, _, hv⟩ := List.mem_filterMap.mp hm
      by_cases hve : v = []
      · rw [if_pos hve] at hv
        cases hv
      · rw [if_neg hve] at hv
        have : kv.1 = e.1 := by
          cases hv
          rfl
        rw [if_neg (this ▸ h e (List.mem_cons_self _ _))]
    · exact ih (fun x hx => h x (List.mem_cons_of_mem _ hx)) hm

/-- The decoded `tag` parameters of the query built by the rewrite:
exactly one, carrying the affiliate tag. -/
theorem tagValues_urlencode_dictSet (d : QDict) (t : PyStr)
    (hnd : (d.map Prod.fst).Nodup) (ht : t ≠ []) :
    tagValues (urlencodeB (dictSet d (pstr "tag") [t])) = [t] := by
  obtain ⟨pre, post, heq, hpre, hpost⟩ := dictSet_decomp d (pstr "tag") [t] hnd
  have hmemD : (pstr "tag", [t]) ∈ dictSet d (pstr "tag") [t] := by
    rw [heq]
    exact List.mem_append.mpr (Or.inr (List.mem_cons_self _ _))
  have hnef : encodeFields (dictSet d (pstr "tag") [t]) ≠ [] :=
    encodeFields_ne_nil_of_mem hmemD (by simp)
  unfold tagValues
  rw [parse_qsl_urlencode _ hnef, heq, fieldPairs_append,
    List.filterMap_append, tagFilter_nil_of_ne hpre, List.nil_append]
  rw [show fieldPairs ((pstr "tag", [t]) :: post) =
        ([t].filterMap (fun v => if v = [] then none
          else some (pstr "tag", v))) ++ fieldPairs post from rfl]
  rw [List.filterMap_append, tagFilter_nil_of_ne hpost, List.append_nil]
  simp [ht]

/-! Component facts of urlsplit and the syntactic query of the rebuilt
URL. -/

theorem byte_ne35 {c : Byte} (h : c.val ≠ 35) : c ≠ (35 : Byte) :=
  fun e => h (by rw [e]; decide)

theorem byte_ne63 {c : Byte} (h : c.val ≠ 63) : c ≠ (63 : Byte) :=
  fun e => h (by rw [e]; decide)

theorem lower_schemeChar_ne : ∀ b : Byte, isSchemeChar b = true →
    lowerByte b ≠ (35 : Byte) ∧ lowerByte b ≠ (63 : Byte) := by decide

theorem schemeSplit_fst_prop (u : PyStr) :
    ∀ c ∈ (schemeSplit u).1, c ≠ (35 : Byte) ∧ c ≠ (63 : Byte) := by
  simp only [schemeSplit]
  split
  · rename_i hcond
    intro c hc
    obtain ⟨c', hc', rfl⟩ := List.mem_map.mp hc
    have hall := hcond.2.2.2
    rw [List.all_eq_true] at hall
    exact lower_schemeChar_ne c' (hall c' hc')
  · intro c hc
    cases hc

theorem splitNetloc_fst_prop (u : PyStr) :
    ∀ c ∈ (splitNetloc u).1, c ≠ (35 : Byte) ∧ c ≠ (63 : Byte) := by
  simp only [splitNetloc]
  split
  · intro c hc
    have hp := List.mem_takeWhile_imp hc
    simp only [Bool.not_eq_true', Bool.or_eq_false_iff,
      beq_eq_false_iff_ne] at hp
    exact ⟨byte_ne35 hp.2.2, byte_ne63 hp.2.1⟩
  · intro c hc
    cases hc

theorem path_fst_prop (s : PyStr) :
    ∀ c ∈ (splitFirstD 63 (splitFirstD 35 s).1).1,
      c ≠ (35 : Byte) ∧ c ≠ (63 : Byte) := by
  intro c hc
  constructor
  · intro e
    subst e
    exact not_mem_splitFirstD_fst 35 s (mem_splitFirstD_fst hc)
  · intro e
    subst e
    exact not_mem_splitFirstD_fst 63 _ hc

theorem urlsplitE_components {ck : NetlocChecks} {u : PyStr}
    {r : SplitResult} (h : urlsplitE ck u = some r) :
    (∀ c ∈ r.scheme, c ≠ (35 : Byte) ∧ c ≠ (63 : Byte)) ∧
    (∀ c ∈ r.netloc, c ≠ (35 : Byte) ∧ c ≠ (63 : Byte)) ∧
    (∀ c ∈ r.path, c ≠ (35 : Byte) ∧ c ≠ (63 : Byte)) := by
  simp only [urlsplitE] at h
  split at h
  · cases h
  · split at h
    · cases h
    · split at h
      · cases h
      · simp only [Option.some.injEq] at h
        subst h
        exact ⟨schemeSplit_fst_prop _, splitNetloc_fst_prop _,
          path_fst_prop _⟩

theorem splitParams_fst_subset (p : PyStr) :
    ∀ c ∈ (splitParams p).1, c ∈ p := by
  simp only [splitParams]
  split
  · split
    · intro c hc
      exact List.take_subset _ _ hc
    · intro c hc
      exact hc
  · split
    · intro c hc
      exact (List.takeWhile_sublist _).mem hc
    · intro c hc
      exact hc

theorem splitParams_snd_subset (p : PyStr) :
    ∀ c ∈ (splitParams p).2, c ∈ p := by
  simp only [splitParams]
  split
  · split
    · intro c hc
      exact List.drop_subset _ _ hc
    · intro c hc
      cases hc
  · split
    · intro c hc
      exact List.drop_subset _ _ hc
    · intro c hc
      cases hc

theorem urlparseE_components {ck : NetlocChecks} {u : PyStr}
    {p : ParseResult6} (h : urlparseE ck u = some p) :
    (∀ c ∈ p.scheme, c ≠ (35 : Byte) ∧ c ≠ (63 : Byte)) ∧
    (∀ c ∈ p.netloc, c ≠ (35 : Byte) ∧ c ≠ (63 : Byte)) ∧
    (∀ c ∈ p.path, c ≠ (35 : Byte) ∧ c ≠ (63 : Byte)) ∧
    (∀ c ∈ p.params, c ≠ (35 : Byte) ∧ c ≠ (63 : Byte)) := by
  unfold urlparseE at h
  cases hs : urlsplitE ck u with
  | none =>
    rw [hs] at h
    cases h
  | some r =>
    rw [hs] at h
    obtain ⟨hsc, hnl, hpa⟩ := urlsplitE_components hs
    simp only [Option.some.injEq] at h
    subst h
    refine ⟨hsc, hnl, ?_, ?_⟩
    · intro c hc
      simp only at hc
      split at hc
      · exact hpa c (splitParams_fst_subset _ c hc)
      · exact hpa c hc
    · intro c hc
      simp only at hc
      split at hc
      · exact hpa c (splitParams_snd_subset _ c hc)
      · cases hc

theorem not_mem_of_prop {l : PyStr} {a : Byte}
    (h : ∀ c ∈ l, c ≠ a) : a ∉ l :=
  fun hm => h a hm rfl

theorem mem_joinSepB {c sep : Byte} {ps : List PyStr}
    (h : c ∈ joinSepB sep ps) : c = sep ∨ ∃ p ∈ ps, c ∈ p := by
  induction ps with
  | nil => cases h
  | cons x xs ih =>
    cases xs with
    | nil => exact Or.inr ⟨x, List.mem_cons_self _ _, h⟩
    | cons y ys =>
      rw [show joinSepB sep (x :: y :: ys) = x ++ sep :: joinSepB sep (y :: ys)
            from rfl] at h
      rcases List.mem_append.mp h with hx | hr
      · exact Or.inr ⟨x, List.mem_cons_self _ _, hx⟩
      · rcases List.mem_cons.mp hr with rfl | hj
        · exact Or.inl rfl
        · rcases ih hj with hl | ⟨p, hp, hcp⟩
          · exact Or.inl hl
          · exact Or.inr ⟨p, List.mem_cons_of_mem _ hp, hcp⟩

theorem mem_encodeFields_ex {f : PyStr} {d : QDict}
    (h : f ∈ encodeFields d) : ∃ k v, f = encodeField k v := by
  induction d with
  | nil => cases h
  | cons kv rest ih =>
    rcases List.mem_append.mp h with hm | hm
    · obtain ⟨v, _, rfl⟩ := List.mem_map.mp hm
      exact ⟨kv.1, v, rfl⟩
    · exact ih hm

theorem mem_urlencodeB {c : Byte} {d : QDict} (h : c ∈ urlencodeB d) :
    c ≠ (35 : Byte) ∧ c ≠ (63 : Byte) := by
  rcases mem_joinSepB h with rfl | ⟨f, hf, hcf⟩
  · exact ⟨by decide, by decide⟩
  · obtain ⟨k, v, rfl⟩ := mem_encodeFields_ex hf
    rcases List.mem_append.mp hcf with hm | hm
    · have := mem_quotePlus_no_special hm
      exact ⟨this.1, this.2.1⟩
    · rcases List.mem_cons.mp hm with rfl | hm
      · exact ⟨by decide, by decide⟩
      · have := mem_quotePlus_no_special hm
        exact ⟨this.1, this.2.1⟩

theorem queryOf_parts (pre query fragment : PyStr)
    (h35 : (35 : Byte) ∉ pre) (h63 : (63 : Byte) ∉ pre)
    (hq35 : (35 : Byte) ∉ query) :
    queryOf (if fragment ≠ [] then (pre ++ 63 :: query) ++ 35 :: fragment
             else pre ++ 63 :: query) = query := by
  have ha : (35 : Byte) ∉ pre ++ 63 :: query := by
    intro hm
    rcases List.mem_append.mp hm with hm | hm
    · exact h35 hm
    · rcases List.mem_cons.mp hm with e | hm
      · cases e
      · exact hq35 hm
  by_cases hf : fragment ≠ []
  · rw [if_pos hf]
    unfold queryOf
    rw [splitFirstD_append fragment ha]
    simp only
    rw [splitFirstD_append query h63]
  · rw [if_neg hf]
    unfold queryOf
    rw [splitFirstD_not_mem ha]
    simp only
    rw [splitFirstD_append query h63]

theorem not_mem_netlocJoin {b : Byte} (netloc url : PyStr)
    (h47 : b ≠ (47 : Byte)) (hn : b ∉ netloc) (hu : b ∉ url) :
    b ∉ netlocJoin netloc url := by
  unfold netlocJoin
  intro hmem
  rcases List.mem_cons.mp hmem with rfl | hmem
  · exact h47 rfl
  rcases List.mem_cons.mp hmem with rfl | hmem
  · exact h47 rfl
  rcases List.mem_append.mp hmem with hmem | hmem
  · exact hn hmem
  · split at hmem
    · rcases List.mem_cons.mp hmem with rfl | hmem
      · exact h47 rfl
      · exact hu hmem
    · exact hu hmem

theorem not_mem_urlunsplit_pre (scheme netloc url : PyStr) (b : Byte)
    (h47 : b ≠ (47 : Byte)) (h58 : b ≠ (58 : Byte)) (hs : b ∉ scheme)
    (hn : b ∉ netloc) (hu : b ∉ url) :
    b ∉ (if scheme ≠ [] then
          scheme ++ 58 ::
            (if netloc ≠ [] ∨ (scheme ≠ [] ∧ scheme ∈ usesNetloc ∧
                url.take 2 ≠ [47, 47]) then netlocJoin netloc url else url)
        else
          (if netloc ≠ [] ∨ (scheme ≠ [] ∧ scheme ∈ usesNetloc ∧
              url.take 2 ≠ [47, 47]) then netlocJoin netloc url else url)) := by
  have h1 : b ∉ (if netloc ≠ [] ∨ (scheme ≠ [] ∧ scheme ∈ usesNetloc ∧
      url.take 2 ≠ [47, 47]) then netlocJoin netloc url else url) := by
    split
    · exact not_mem_netlocJoin netloc url h47 hn hu
    · exact hu
  split
  · intro hmem
    rcases List.mem_append.mp hmem with hmem | hmem
    · exact hs hmem
    · rcases List.mem_cons.mp hmem with rfl | hmem
      · exact h58 rfl
      · exact h1 hmem
  · exact h1

/-- The syntactic query component of the URL rebuilt by `urlunsplit` is
exactly the query that was put in, provided the other components are free
of `#` and `?` and the query is non-empty and `#`-free. -/
theorem queryOf_urlunsplitB (scheme netloc url query fragment : PyStr)
    (hs35 : (35 : Byte) ∉ scheme) (hs63 : (63 : Byte) ∉ scheme)
    (hn35 : (35 : Byte) ∉ netloc) (hn63 : (63 : Byte) ∉ netloc)
    (hu35 : (35 : Byte) ∉ url) (hu63 : (63 : Byte) ∉ url)
    (hq35 : (35 : Byte) ∉ query) (hqne : query ≠ []) :
    queryOf (urlunsplitB scheme netloc url query fragment) = query := by
  simp only [urlunsplitB]
  rw [if_pos hqne]
  exact queryOf_parts _ query fragment
    (not_mem_urlunsplit_pre scheme netloc url 35 (by decide) (by decide)
      hs35 hn35 hu35)
    (not_mem_urlunsplit_pre scheme netloc url 63 (by decide) (by decide)
      hs63 hn63 hu63)
    hq35

theorem mem_dictSet_self (d : QDict) (k : PyStr) (vs : List PyStr)
    (hnd : (d.map Prod.fst).Nodup) : (k, vs) ∈ dictSet d k vs := by
  obtain ⟨pre, post, heq, _, _⟩ := dictSet_decomp d k vs hnd
  rw [heq]
  exact List.mem_append.mpr (Or.inr (List.mem_cons_self _ _))

/-- Under the hypotheses of the rewrite branch, the affiliate conversion
returns exactly the rebuilt URL. -/
theorem convert_eq_rebuild (ck : NetlocChecks) {u : PyStr} (tag : PyStr)
    {p : ParseResult6} (hp : urlparseE ck u = some p)
    (hamz : is_amazon_url u = true) (htag : tag ≠ []) :
    convert_to_affiliate_link ck u tag = rebuiltUrl p tag := by
  have hune : u ≠ [] := by
    rintro rfl
    simp [is_amazon_url] at hamz
  unfold convert_to_affiliate_link
  rw [if_neg (not_or.mpr ⟨hune, htag⟩), if_neg (fun hcon => hcon hamz), hp]
  rfl

/-- Decomposition failure makes the conversion a no-op. -/
theorem convert_parse_fail (ck : NetlocChecks) (u t : PyStr)
    (h : urlparseE ck u = none) : convert_to_affiliate_link ck u t = u := by
  unfold convert_to_affiliate_link
  split
  · rfl
  · split
    · rfl
    · rw [h]

/-- The three facts about a rebuilt URL: its syntactic query component is
the encoded dict, that query decodes to exactly one `tag` parameter
carrying the affiliate tag, and it is non-empty. -/
theorem rebuild_props (ck : NetlocChecks) {u : PyStr} (tag : PyStr)
    {p : ParseResult6} (hp : urlparseE ck u = some p) (htag : tag ≠ []) :
    queryOf (rebuiltUrl p tag) = taggedQuery p tag ∧
    tagValues (taggedQuery p tag) = [tag] ∧
    taggedQuery p tag ≠ [] := by
  have hnd := parse_qs_keys_nodup p.query
  have hmemD : (pstr "tag", [tag]) ∈
      dictSet (parse_qs_model p.query) (pstr "tag") [tag] :=
    mem_dictSet_self _ _ _ hnd
  have hnef : encodeFields
      (dictSet (parse_qs_model p.query) (pstr "tag") [tag]) ≠ [] :=
    encodeFields_ne_nil_of_mem hmemD (by simp)
  have hqne : taggedQuery p tag ≠ [] :=
    joinSepB_ne_nil hnef (fun f hf => (encodeFields_props _ f hf).2)
  obtain ⟨hsc, hnl, hpa, hpr⟩ := urlparseE_components hp
  have hq35 : (35 : Byte) ∉ taggedQuery p tag :=
    fun hm => (mem_urlencodeB hm).1 rfl
  refine ⟨?_, tagValues_urlencode_dictSet _ tag hnd htag, hqne⟩
  unfold rebuiltUrl
  simp only [urlunparseB]
  apply queryOf_urlunsplitB
  · exact not_mem_of_prop (fun c hc => (hsc c hc).1)
  · exact not_mem_of_prop (fun c hc => (hsc c hc).2)
  · exact not_mem_of_prop (fun c hc => (hnl c hc).1)
  · exact not_mem_of_prop (fun c hc => (hnl c hc).2)
  · split
    · intro hm
      rcases List.mem_append.mp hm with hm | hm
      · exact (hpa _ hm).1 rfl
      · rcases List.mem_cons.mp hm with e | hm
        · cases e
        · exact (hpr _ hm).1 rfl
    · exact not_mem_of_prop (fun c hc => (hpa c hc).1)
  · split
    · intro hm
      rcases List.mem_append.mp hm with hm | hm
      · exact (hpa _ hm).2 rfl
      · rcases List.mem_cons.mp hm with e | hm
        · cases e
        · exact (hpr _ hm).2 rfl
    · exact not_mem_of_prop (fun c hc => (hpa c hc).2)
  · exact hq35
  · exact hqne

/-- C7 counterexample: the claim quantifies over every URL, but on a
non-Amazon URL the rewrite is the identity, so applying it twice with a
non-empty tag yields a URL with no `tag` parameter at all. -/
theorem c7_counterexample_non_amazon :
    convert_to_affiliate_link ⟨fun _ => true, fun _ => true⟩
        (convert_to_affiliate_link ⟨fun _ => true, fun _ => true⟩
          (pstr "https://example.com/x") (pstr "tag-20")) (pstr "tag-20")
      = pstr "https://example.com/x" ∧
    tagValues (queryOf
      (convert_to_affiliate_link ⟨fun _ => true, fun _ => true⟩
        (convert_to_affiliate_link ⟨fun _ => true, fun _ => true⟩
          (pstr "https://example.com/x") (pstr "tag-20")) (pstr "tag-20")))
      = [] ∧
    pstr "tag-20" ≠ [] := by
  refine ⟨by decide, by decide, by decide⟩

/-- C7 amended: for every URL recognized as an Amazon URL whose
decomposition succeeds and every non-empty tag, applying the rewrite twice
yields a URL whose query string decodes to exactly one `tag` parameter
equal to that tag; and whenever URL decomposition fails the rewrite
returns its input unchanged. -/
theorem c7_amended_idempotent (ck : NetlocChecks) (url tag : PyStr)
    (hamz : is_amazon_url url = true) (htag : tag ≠ [])
    (hsome : (urlparseE ck url).isSome = true) :
    tagValues (queryOf (convert_to_affiliate_link ck
        (convert_to_affiliate_link ck url tag) tag)) = [tag] ∧
    (∀ u t : PyStr, urlparseE ck u = none →
      convert_to_affiliate_link ck u t = u) := by
  refine ⟨?_, fun u t h => convert_parse_fail ck u t h⟩
  obtain ⟨p, hp⟩ := Option.isSome_iff_exists.mp hsome
  obtain ⟨hqof, htv, hqne⟩ := rebuild_props ck tag hp htag
  rw [convert_eq_rebuild ck tag hp hamz htag]
  have hu1ne : rebuiltUrl p tag ≠ [] := by
    intro e
    apply hqne
    rw [← hqof, e]
    rfl
  unfold convert_to_affiliate_link
  rw [if_neg (not_or.mpr ⟨hu1ne, htag⟩)]
  by_cases hc2 : is_amazon_url (rebuiltUrl p tag) = true
  · rw [if_neg (fun hcon => hcon hc2)]
    cases hp2 : urlparseE ck (rebuiltUrl p tag) with
    | none =>
      show tagValues (queryOf (rebuiltUrl p tag)) = [tag]
      rw [hqof]
      exact htv
    | some p2 =>
      obtain ⟨hqof2, htv2, _⟩ := rebuild_props ck tag hp2 htag
      show tagValues (queryOf (rebuiltUrl p2 tag)) = [tag]
      rw [hqof2]
      exact htv2
  · rw [if_pos hc2, hqof]
    exact htv

/-- Witness for the amended C7 at a concrete Amazon URL carrying an old
tag. -/
theorem c7_amended_idempotent_witness :
    is_amazon_url (pstr "https://www.amazon.com/dp/B0?ref=sr&tag=old") = true ∧
    tagValues (queryOf (convert_to_affiliate_link ⟨fun _ => true, fun _ => true⟩
        (convert_to_affiliate_link ⟨fun _ => true, fun _ => true⟩
          (pstr "https://www.amazon.com/dp/B0?ref=sr&tag=old") (pstr "mytag-20"))
        (pstr "mytag-20"))) = [pstr "mytag-20"] :=
  ⟨by decide,
   (c7_amended_idempotent ⟨fun _ => true, fun _ => true⟩
      (pstr "https://www.amazon.com/dp/B0?ref=sr&tag=old") (pstr "mytag-20")
      (by decide) (by decide) (by decide)).1⟩

end BrickSniper
